import Mathlib

/-!
Verification development for the DpOutSum outlier-search engine.

The Go program under study detects anomalous salary records with a
local-outlier-factor (LOF) score and then exhaustively scans every superset
of a baseline filtering context.  This file gives a shallow embedding of the
program's data model and algorithms:

* records, the database, contexts and the streamed inclusion filter
  (`Database.filter`, embedding `Database.Filter` from the Go source);
* the per-worker inclusion mask (`InclusionMask`, with `fill` embedding
  `InclusionMask.Fill`); the Go byte-packed bitset is abstracted to its
  bit sequence (one `Bool` per record, in record order), which preserves
  every bit the program ever queries (`IsIncluded` is only called with
  record indices below the record count);
* the precomputed nearest-neighbour index contract and the lazily filtered
  query `kNearest` (embedding `Knn.KNearest`);
* the three LOF scoring passes and their reusable per-worker cache
  (`LofCache`, `computeCoreDistances`, `computeLrds`, `computeLofs`),
  with Go `float64` arithmetic modelled as exact rational arithmetic;
* the minimum-population wrapper (`findOutliersWrap`, embedding the
  top-level `FindOutliers` of main.go);
* the recursive superset enumeration (`recursivePermute`) and the worker
  pool that scans the enumerated contexts.
-/

/-- One salary record.  Mirrors the Go `Employee` struct: a stable
identifier, three categorical indices and the numeric salary.  The Go
`uint64`/`uint`/`uint32` fields are modelled as `Nat` (no arithmetic in the
program ever overflows them: salaries are parsed into 32 bits and only
compared and subtracted after a comparison). -/
structure Employee where
  id : Nat
  employer : Nat
  jobTitle : Nat
  year : Nat
  salary : Nat
deriving DecidableEq, Repr, Inhabited

/-- `Employee.Distance`: absolute difference of the salaries.  The Go code
branches on `e.Salary < other.Salary` and subtracts the smaller from the
larger, so the `uint32` subtraction never wraps and the result is the exact
absolute difference. -/
def Employee.distance (e other : Employee) : Nat :=
  if e.salary < other.salary then other.salary - e.salary
  else e.salary - other.salary

/-- The record store produced by `ReadDatabase`: per-dimension dictionaries
plus the ordered list of records.  Dictionary contents other than their
lengths never influence the algorithms under study, but they are kept so
that contexts are sized exactly as in the Go code. -/
structure Database where
  employers : List String
  jobTitles : List String
  years : List Nat
  employees : List Employee
deriving DecidableEq, Repr

/-- Distance between the records at indices `i` and `j` of the database
(out-of-range indices read a default record; every use in the program is in
range, which the safety theorem for the scoring pipeline makes explicit). -/
def Database.dist (db : Database) (i j : Nat) : Nat :=
  (db.employees.getD i default).distance (db.employees.getD j default)

/-- A filtering context: one inclusion flag per dictionary value of each
dimension, exactly as the Go `Context` struct. -/
structure Context where
  employersIncluded : List Bool
  jobTitlesIncluded : List Bool
  yearsIncluded : List Bool
deriving DecidableEq, Repr

/-- `Database.Filter` streams, in record order, whether each record's three
categorical indices are all included in the context.  The Go code sends the
booleans over a channel; the stream is modelled as the produced list. -/
def Database.filter (db : Database) (ctx : Context) : List Bool :=
  db.employees.map (fun e =>
    ctx.employersIncluded.getD e.employer false &&
    ctx.jobTitlesIncluded.getD e.jobTitle false &&
    ctx.yearsIncluded.getD e.year false)

/-- The per-worker inclusion mask: the Go struct packs one bit per record
into bytes; the model keeps the bit sequence itself, plus the running
`Count` field. -/
structure InclusionMask where
  mask : List Bool
  count : Nat
deriving DecidableEq, Repr

/-- `NewInclusionMask`: all bits clear, count zero. -/
def newInclusionMask (db : Database) : InclusionMask :=
  { mask := List.replicate db.employees.length false, count := 0 }

/-- `InclusionMask.IsIncluded`: read bit `i`.  (In Go this indexes byte
`i/8`; the bit model reads position `i` directly, which agrees for every
index below the record count.) -/
def InclusionMask.isIncluded (im : InclusionMask) (i : Nat) : Bool :=
  im.mask.getD i false

/-- `InclusionMask.Fill` consumes the streamed inclusion booleans.  The loop
overwrites the mask bit of every streamed record (each byte is zeroed when
its first bit arrives, then the bits of included records are set), and it
increments `im.Count` once per included record.  Crucially, the Go function
initialises its local byte/bit cursors but never resets `im.Count`, so the
count accumulates on top of whatever value the mask already carried. -/
def InclusionMask.fill (im : InclusionMask) (inclusion : List Bool) : InclusionMask :=
  { mask := inclusion,
    count := inclusion.foldl (fun c inc => if inc then c + 1 else c) im.count }

/-- Number of bits set in a mask. -/
def InclusionMask.popcount (im : InclusionMask) : Nat :=
  (im.mask.filter id).length

/-- Indices of the records included in a mask. -/
def InclusionMask.includedIndices (im : InclusionMask) : List Nat :=
  (List.range im.mask.length).filter (fun i => im.isIncluded i)

/-- A one-record database used as a concrete evaluation point: a single
employee whose categorical indices all point at the first dictionary
entries. -/
def dbOne : Database :=
  { employers := ["A"], jobTitles := ["T"], years := [2020],
    employees := [{ id := 7, employer := 0, jobTitle := 0, year := 0, salary := 50 }] }

/-- The all-inclusive context for `dbOne`. -/
def ctxOne : Context :=
  { employersIncluded := [true], jobTitlesIncluded := [true], yearsIncluded := [true] }

theorem fill_count_foldl (inclusion : List Bool) (c : Nat) :
    inclusion.foldl (fun c inc => if inc then c + 1 else c) c
      = c + (inclusion.filter id).length := by
  induction inclusion generalizing c with
  | nil => simp
  | cons b rest ih =>
    cases b
    · simp [List.foldl_cons, ih, List.filter_cons]
    · simp [List.foldl_cons, ih, List.filter_cons]
      omega

/-- After any `fill`, the mask bits are exactly the streamed inclusion
booleans, and the count grows by the number of included records. -/
theorem fill_spec (im : InclusionMask) (inclusion : List Bool) :
    (im.fill inclusion).mask = inclusion ∧
    (im.fill inclusion).count = im.count + (inclusion.filter id).length := by
  refine ⟨rfl, ?_⟩
  simp [InclusionMask.fill, fill_count_foldl]

/-- C1: the Inclusion Mask is *not* fully rebuilt from scratch by `Fill`.
Evaluating the code on a reused mask: `dbOne` has a single record, included
under `ctxOne`.  Filling a fresh mask for that context and then filling the
same mask again for the same context leaves the bits correct (the one
record's bit is set, and bit `r` is set iff the record's three indices are
included), but the `Count` field reads 2 even though only one record is
included, because `Fill` never resets the count.  This refutes the claim's
count clause for reused masks. -/
theorem fill_count_not_rebuilt :
    (((newInclusionMask dbOne).fill (dbOne.filter ctxOne)).fill
        (dbOne.filter ctxOne)).mask = [true] ∧
    (((newInclusionMask dbOne).fill (dbOne.filter ctxOne)).fill
        (dbOne.filter ctxOne)).count = 2 ∧
    (((newInclusionMask dbOne).fill (dbOne.filter ctxOne)).fill
        (dbOne.filter ctxOne)).popcount = 1 := by
  decide

/-!  ## The nearest-neighbour index

`Knn.precomputeDistances` builds, for every record `i`, the array of all `n`
record indices together with their distance to `i` (the self distance is
forced to 0), sorts that array with `sort.Slice` under the comparator
`distance a < distance b`, and then copies the sorted targets, skipping `i`
itself, into row `i` of `NearestNeighbors`.

`sort.Slice` guarantees only that the result is a permutation of the input
that is sorted with respect to the comparator; it is explicitly *not*
stable, so the relative order of equal-distance targets is left open (and in
practice depends on the pivoting of Go's quicksort).  A row the program can
compute is therefore any list obtained by sorting all indices by distance
and removing the self index; `validRow` captures exactly this contract. -/

/-- The rows that `precomputeDistances` can produce for record `i`: some
distance-sorted permutation `full` of all `n` indices with the self index
filtered out while copying. -/
def validRow (db : Database) (i : Nat) (row : List Nat) : Prop :=
  ∃ full : List Nat,
    full.Perm (List.range db.employees.length) ∧
    full.Pairwise (fun a b => db.dist i a ≤ db.dist i b) ∧
    row = full.filter (fun t => !(t = i : Bool))

/-- The tie-break order asserted by the spec: strictly closer first, and
equal distances resolved by ascending original record index. -/
def rowIndexTieOrdered (db : Database) (i : Nat) (row : List Nat) : Prop :=
  row.Pairwise (fun a b => db.dist i a < db.dist i b ∨
    (db.dist i a = db.dist i b ∧ a < b))

/-- One deterministic sorted row (an insertion sort, used to build concrete
neighbour indices for evaluation; on databases whose per-row distances are
all distinct it is the only row `validRow` admits). -/
def buildRow (db : Database) (i : Nat) : List Nat :=
  (List.insertionSort (fun a b => db.dist i a ≤ db.dist i b)
      (List.range db.employees.length)).filter (fun t => !(t = i : Bool))

/-- The full neighbour index built with `buildRow`. -/
def buildNn (db : Database) : List (List Nat) :=
  (List.range db.employees.length).map (buildRow db)

theorem buildRow_validRow (db : Database) (i : Nat) : validRow db i (buildRow db i) := by
  haveI htot : IsTotal Nat (fun a b => db.dist i a ≤ db.dist i b) := ⟨fun a b => by omega⟩
  haveI htr : IsTrans Nat (fun a b => db.dist i a ≤ db.dist i b) := ⟨fun a b c hab hbc => by omega⟩
  exact ⟨List.insertionSort (fun a b => db.dist i a ≤ db.dist i b)
      (List.range db.employees.length),
    List.perm_insertionSort _ _, List.sorted_insertionSort _ _, rfl⟩

/-- `Knn.KNearest`: scan row `i` of the precomputed index in order, keep the
indices included in the mask, and stop once the output buffer (of length
`k`) is full.  The returned value is the prefix of the output buffer that
the caller re-slices to (`out[:validNeighbors]`). -/
def kNearest (row : List Nat) (im : InclusionMask) (k : Nat) : List Nat :=
  (row.filter (fun j => im.isIncluded j)).take k

/-- Number of records other than `i` included in the mask (`n` is the record
count). -/
def includedOthers (im : InclusionMask) (i : Nat) (n : Nat) : Nat :=
  (((List.range n).filter (fun t => !(t = i : Bool))).filter
    (fun j => im.isIncluded j)).length

/-- A three-record database
(salaries 5, 4 and 6, so records 1 and 2 are equidistant from record 0). -/
def dbThree : Database :=
  { employers := ["A"], jobTitles := ["T"], years := [2020],
    employees :=
      [{ id := 0, employer := 0, jobTitle := 0, year := 0, salary := 5 },
       { id := 1, employer := 0, jobTitle := 0, year := 0, salary := 4 },
       { id := 2, employer := 0, jobTitle := 0, year := 0, salary := 6 }] }

theorem validRow_perm_sorted {db : Database} {i : Nat} {row : List Nat}
    (h : validRow db i row) :
    row.Perm ((List.range db.employees.length).filter (fun t => !(t = i : Bool))) ∧
    row.Pairwise (fun a b => db.dist i a ≤ db.dist i b) := by
  obtain ⟨full, hperm, hsort, rfl⟩ := h
  exact ⟨hperm.filter _, hsort.sublist (List.filter_sublist full)⟩

/-- C8 (corrected): the sorted-permutation facts about a precomputed
neighbour row that `sort.Slice`'s contract does guarantee: every row the
index construction can produce is a permutation of all record indices other
than `i`, never contains `i` itself, and is non-decreasing in distance to
`i`.  (The tie-break clause of the original claim is dropped; see the
counterexample.) -/
theorem precomputedRow_sorted_no_self (db : Database) (i : Nat) (row : List Nat)
    (h : validRow db i row) :
    row.Perm ((List.range db.employees.length).filter (fun t => !(t = i : Bool))) ∧
    i ∉ row ∧
    row.Pairwise (fun a b => db.dist i a ≤ db.dist i b) := by
  obtain ⟨full, hperm, hsort, hrow⟩ := h
  refine ⟨(validRow_perm_sorted ⟨full, hperm, hsort, hrow⟩).1, ?_,
    (validRow_perm_sorted ⟨full, hperm, hsort, hrow⟩).2⟩
  subst hrow
  intro hmem
  have := List.of_mem_filter hmem
  simp at this

/-- Witness for the corrected C8 theorem: on `dbThree`, `[1, 2]` is a
producible row for record 0 and the theorem's conclusions evaluate as
stated. -/
theorem precomputedRow_sorted_no_self_witness :
    0 ∉ ([1, 2] : List Nat) ∧
    ([1, 2] : List Nat).Perm
      ((List.range dbThree.employees.length).filter (fun t => !(t = 0 : Bool))) := by
  have h := precomputedRow_sorted_no_self dbThree 0 [1, 2]
    ⟨[0, 1, 2], by decide, by decide, by decide⟩
  exact ⟨h.2.1, h.1⟩

/-- C8 counterexample: the claim's tie-break clause fails.  On `dbThree`,
records 1 and 2 are both at distance 1 from record 0, and `[2, 1]` is a row
that the index construction is allowed to produce (`sort.Slice` is not
stable), yet it does not list the tied indices in ascending record-index
order. -/
theorem precomputedRow_tie_break_cex :
    validRow dbThree 0 [2, 1] ∧ ¬ rowIndexTieOrdered dbThree 0 [2, 1] := by
  constructor
  · exact ⟨[0, 2, 1], by decide, by decide, by decide⟩
  · intro h
    have := List.rel_of_pairwise_cons h (List.mem_cons_self 1 [])
    revert this
    decide

/-- C5: the lazy-filter query.  For any producible row for record `i`, any
mask and any output-buffer capacity `k`, `kNearest` returns at most `k`
indices, all included in the mask, none equal to `i`, in non-decreasing
order of distance to `i`; and it returns fewer than `k` only when the mask
includes fewer than `k` records other than `i` (in which case it returns
all of them). -/
theorem kNearest_spec (db : Database) (im : InclusionMask) (i k : Nat) (row : List Nat)
    (h : validRow db i row) :
    (kNearest row im k).length ≤ k ∧
    (∀ j ∈ kNearest row im k, im.isIncluded j = true) ∧
    (∀ j ∈ kNearest row im k, j ≠ i) ∧
    (kNearest row im k).Pairwise (fun a b => db.dist i a ≤ db.dist i b) ∧
    ((kNearest row im k).length < k →
      (kNearest row im k).length = includedOthers im i db.employees.length ∧
      includedOthers im i db.employees.length < k) := by
  obtain ⟨hperm, hsort⟩ := validRow_perm_sorted h
  have hsub : (kNearest row im k).Sublist row :=
    (List.take_sublist _ _).trans (List.filter_sublist _)
  have hlenfil : (row.filter (fun j => im.isIncluded j)).length
      = includedOthers im i db.employees.length :=
    (hperm.filter (fun j => im.isIncluded j)).length_eq
  refine ⟨?_, ?_, ?_, ?_, ?_⟩
  · simp [kNearest, List.length_take]
  · intro j hj
    exact List.of_mem_filter ((List.take_sublist _ _).subset hj)
  · intro j hj
    have hjrow : j ∈ row := hsub.subset hj
    have : j ∈ (List.range db.employees.length).filter (fun t => !(t = i : Bool)) :=
      hperm.mem_iff.mp hjrow
    have := List.of_mem_filter this
    simpa using this
  · exact hsort.sublist hsub
  · intro hlt
    have : (kNearest row im k).length
        = min k (row.filter (fun j => im.isIncluded j)).length := by
      simp [kNearest, List.length_take]
    omega

/-- Witness for C5 on `dbThree`: row `[1, 2]` for record 0, all records
included, buffer capacity 1. -/
theorem kNearest_spec_witness :
    kNearest [1, 2] ⟨[true, true, true], 3⟩ 1 = [1] ∧
    (kNearest [1, 2] ⟨[true, true, true], 3⟩ 1).length ≤ 1 := by
  refine ⟨by decide, ?_⟩
  exact (kNearest_spec dbThree ⟨[true, true, true], 3⟩ 0 1 [1, 2]
    ⟨[0, 1, 2], by decide, by decide, by decide⟩).1

/-!  ## The outlier scorer

`LofCache` is the reusable per-worker buffer set: one neighbourhood buffer
per record (allocated with capacity `K` and re-sliced by each core-distance
pass to the neighbours actually found), plus per-record core distances and
local reachability densities.  Go `float64` values are modelled as exact
rationals.  Each Go pass iterates `i` over all records and reads/writes only
position `i` of the arrays it updates, so each pass is modelled as a map
over the index range. -/
structure LofCache where
  neighborhoods : List (List Nat)
  coreDistance : List Nat
  lrds : List ℚ
deriving DecidableEq, Repr

/-- `Lof.NewThreadCache`: zeroed arrays sized to the record count, with one
`K`-slot neighbourhood buffer per record. -/
def newThreadCache (db : Database) (k : Nat) : LofCache :=
  { neighborhoods := List.replicate db.employees.length (List.replicate k 0),
    coreDistance := List.replicate db.employees.length 0,
    lrds := List.replicate db.employees.length 0 }

/-- One iteration of `computeCoreDistances` for record `i`: when `i` is
included, query `kNearest` with the *current length* of `i`'s neighbourhood
buffer as the capacity (the Go code passes `cache.Neighborhoods[i]`, whose
length is whatever the previous re-slice left), re-slice the buffer to the
neighbours found, and store the distance to the furthest of them (the Go
code reads `Neighborhoods[i][numNeighbors-1]`; an empty neighbourhood
panics there, which the checked pipeline below models).  Excluded records
keep their stale buffers. -/
def coreAt (db : Database) (nn : List (List Nat)) (im : InclusionMask)
    (cache : LofCache) (i : Nat) : List Nat × Nat :=
  if im.isIncluded i then
    let nbrs := kNearest (nn.getD i []) im (cache.neighborhoods.getD i []).length
    (nbrs, db.dist i (nbrs.getLastD 0))
  else (cache.neighborhoods.getD i [], cache.coreDistance.getD i 0)

/-- `Lof.computeCoreDistances` (first pass), iterating over
`range len(cache.CoreDistance)`. -/
def computeCoreDistances (db : Database) (nn : List (List Nat)) (im : InclusionMask)
    (cache : LofCache) : LofCache :=
  { cache with
    neighborhoods :=
      (List.range cache.coreDistance.length).map (fun i => (coreAt db nn im cache i).1),
    coreDistance :=
      (List.range cache.coreDistance.length).map (fun i => (coreAt db nn im cache i).2) }

/-- Sum of reachability distances from record `i` to its cached
neighbourhood: each distance `dist(j, i)` is floored by neighbour `j`'s own
core distance before being accumulated (in Go, a comparison and overwrite
before the float accumulation). -/
def reachSum (db : Database) (cache : LofCache) (i : Nat) : ℚ :=
  ((cache.neighborhoods.getD i []).map
    (fun j => (↑(max (db.dist j i) (cache.coreDistance.getD j 0)) : ℚ))).sum

/-- One iteration of `computeLrds` for record `i`. -/
def lrdAt (db : Database) (im : InclusionMask) (cache : LofCache) (i : Nat) : ℚ :=
  if im.isIncluded i then
    ((cache.neighborhoods.getD i []).length : ℚ) / reachSum db cache i
  else cache.lrds.getD i 0

/-- `Lof.computeLrds` (second pass), iterating over
`range len(cache.LocalReachabilityDensities)`. -/
def computeLrds (db : Database) (im : InclusionMask) (cache : LofCache) : LofCache :=
  { cache with lrds := (List.range cache.lrds.length).map (lrdAt db im cache) }

/-- The score expression `computeLofs` evaluates for record `i`:
`sum(lrd(j) for j in N(i)) / (len(N(i)) * lrd(i))`. -/
def lofScore (cache : LofCache) (i : Nat) : ℚ :=
  ((cache.neighborhoods.getD i []).map (fun j => cache.lrds.getD j 0)).sum /
    (((cache.neighborhoods.getD i []).length : ℚ) * cache.lrds.getD i 0)

/-- Modelled from the spec: the outlier score stated as "(average local
density of the neighbours) / (local density of `i`)". -/
def specLofScore (cache : LofCache) (i : Nat) : ℚ :=
  (((cache.neighborhoods.getD i []).map (fun j => cache.lrds.getD j 0)).sum /
      ((cache.neighborhoods.getD i []).length : ℚ)) / cache.lrds.getD i 0

/-- The loop of `Lof.computeLofs` (third pass) over a list of record
indices: each included record whose score reaches the threshold is handed to
the visitor; a `false` visitor result returns from the whole pass at once.
The result collects the visitor invocations in order. -/
def lofsGo (cache : LofCache) (im : InclusionMask) (threshold : ℚ)
    (handler : Nat → ℚ → Bool) : List Nat → List (Nat × ℚ)
  | [] => []
  | i :: rest =>
    if im.isIncluded i then
      if threshold ≤ lofScore cache i then
        if handler i (lofScore cache i) then
          (i, lofScore cache i) :: lofsGo cache im threshold handler rest
        else [(i, lofScore cache i)]
      else lofsGo cache im threshold handler rest
    else lofsGo cache im threshold handler rest

/-- `Lof.computeLofs`, iterating over
`range len(cache.LocalReachabilityDensities)`.  The visitor receives the
record (identified here by its index; Go passes the pointer
`lof.Db.Employees[i]`) and its score. -/
def computeLofs (cache : LofCache) (im : InclusionMask) (threshold : ℚ)
    (handler : Nat → ℚ → Bool) : List (Nat × ℚ) :=
  lofsGo cache im threshold handler (List.range cache.lrds.length)

/-- `Lof.FindOutliers`: the three passes in sequence over one mask and one
cache.  Returns the updated cache (the buffers are reused by the caller)
together with the sequence of visitor invocations. -/
def lofFindOutliers (db : Database) (nn : List (List Nat)) (threshold : ℚ)
    (cache : LofCache) (im : InclusionMask) (handler : Nat → ℚ → Bool) :
    LofCache × List (Nat × ℚ) :=
  let c1 := computeCoreDistances db nn im cache
  let c2 := computeLrds db im c1
  (c2, computeLofs c2 im threshold handler)

/-- The `FindOutliers` wrapper of main.go: fill the caller's mask from the
streamed context filter, skip scoring entirely when the mask's count is
below `MinPopulationSize = 20`, and otherwise run the scorer. -/
def findOutliersWrap (db : Database) (nn : List (List Nat)) (threshold : ℚ)
    (cache : LofCache) (im : InclusionMask) (ctx : Context)
    (handler : Nat → ℚ → Bool) : InclusionMask × LofCache × List (Nat × ℚ) :=
  let im2 := im.fill (db.filter ctx)
  if im2.count < 20 then (im2, cache, [])
  else
    let r := lofFindOutliers db nn threshold cache im2 handler
    (im2, r.1, r.2)

theorem getD_map_range {α : Type} (f : Nat → α) {n i : Nat} (d : α) (h : i < n) :
    ((List.range n).map f).getD i d = f i := by
  simp [List.getD_eq_getElem?_getD, List.getElem?_map, List.getElem?_range h]

/-- C6: the density and score formulas.  For every included record `i`, the
second pass stores exactly `lrd(i) = |N(i)| / Σ_{j ∈ N(i)} max(dist(j,i),
coreDistance(j))`, and the expression the third pass computes,
`Σ lrd(j) / (|N(i)| · lrd(i))`, coincides with the ratio the spec states,
`(Σ lrd(j) / |N(i)|) / lrd(i)` (average neighbour density over own
density). -/
theorem lof_formulas (db : Database) (im : InclusionMask) (cache : LofCache) (i : Nat)
    (hi : i < cache.lrds.length) (hinc : im.isIncluded i = true) :
    (computeLrds db im cache).lrds.getD i 0
      = ((cache.neighborhoods.getD i []).length : ℚ) / reachSum db cache i ∧
    lofScore cache i = specLofScore cache i := by
  constructor
  · show ((List.range cache.lrds.length).map (lrdAt db im cache)).getD i 0 = _
    rw [getD_map_range _ (0 : ℚ) hi]
    simp [lrdAt, hinc]
  · simp [lofScore, specLofScore, div_div]

/-- Witness for C6: record 0 of `dbThree`, all records included, fresh
two-slot cache. -/
theorem lof_formulas_witness :
    (computeLrds dbThree ⟨[true, true, true], 3⟩ (newThreadCache dbThree 2)).lrds.getD 0 0
      = (((newThreadCache dbThree 2).neighborhoods.getD 0 []).length : ℚ)
          / reachSum dbThree (newThreadCache dbThree 2) 0 ∧
    lofScore (newThreadCache dbThree 2) 0 = specLofScore (newThreadCache dbThree 2) 0 :=
  lof_formulas dbThree ⟨[true, true, true], 3⟩ (newThreadCache dbThree 2) 0
    (by decide) (by decide)

/-- Modelled from the spec: the sequence of qualifying records of the third
pass — every included record whose score reaches the threshold, paired with
its score, in ascending record-index order. -/
def qualifying (cache : LofCache) (im : InclusionMask) (threshold : ℚ) :
    List (Nat × ℚ) :=
  ((List.range cache.lrds.length).filter
      (fun i => im.isIncluded i && decide (threshold ≤ lofScore cache i))).map
    (fun i => (i, lofScore cache i))

/-- Modelled from the spec: a visitor-driven traversal keeps the elements up
to and including the first one on which the visitor asks to stop. -/
def takeThrough {α : Type} (p : α → Bool) : List α → List α
  | [] => []
  | a :: rest => if p a then a :: takeThrough p rest else [a]

theorem lofsGo_takeThrough (cache : LofCache) (im : InclusionMask) (threshold : ℚ)
    (handler : Nat → ℚ → Bool) (l : List Nat) :
    lofsGo cache im threshold handler l
      = takeThrough (fun v => handler v.1 v.2)
          ((l.filter (fun i => im.isIncluded i && decide (threshold ≤ lofScore cache i))).map
            (fun i => (i, lofScore cache i))) := by
  induction l with
  | nil => rfl
  | cons i rest ih =>
    by_cases hinc : im.isIncluded i = true
    · by_cases hsc : threshold ≤ lofScore cache i
      · by_cases hh : handler i (lofScore cache i) = true
        · simp [lofsGo, hinc, hsc, hh, List.filter_cons, takeThrough, ih]
        · simp only [Bool.not_eq_true] at hh
          simp [lofsGo, hinc, hsc, hh, List.filter_cons, takeThrough]
      · simp [lofsGo, hinc, hsc, List.filter_cons, ih]
    · simp only [Bool.not_eq_true] at hinc
      simp [lofsGo, hinc, List.filter_cons, ih]

/-- C9: the third pass visits exactly the included records whose score
reaches the threshold, in ascending record-index order, and a `false`
visitor verdict truncates the traversal immediately after that record. -/
theorem computeLofs_spec (cache : LofCache) (im : InclusionMask) (threshold : ℚ)
    (handler : Nat → ℚ → Bool) :
    computeLofs cache im threshold handler
      = takeThrough (fun v => handler v.1 v.2) (qualifying cache im threshold) :=
  lofsGo_takeThrough cache im threshold handler (List.range cache.lrds.length)

/-- C3: the minimum-population gate.  Whenever the freshly filled mask's
count is below 20, the wrapper returns at once: the visitor is never
invoked (no outliers, no match) and the cache is returned untouched — none
of the three scoring passes ran. -/
theorem minPopulation_gate (db : Database) (nn : List (List Nat)) (threshold : ℚ)
    (cache : LofCache) (im : InclusionMask) (ctx : Context)
    (handler : Nat → ℚ → Bool)
    (h : (im.fill (db.filter ctx)).count < 20) :
    findOutliersWrap db nn threshold cache im ctx handler
      = (im.fill (db.filter ctx), cache, []) := by
  simp [findOutliersWrap, h]

/-- Witness for C3: `dbOne` under the all-inclusive context fills a fresh
mask to count 1 < 20, so the wrapper performs no scoring. -/
theorem minPopulation_gate_witness :
    findOutliersWrap dbOne (buildNn dbOne) (3 / 2) (newThreadCache dbOne 20)
        (newInclusionMask dbOne) ctxOne (fun _ _ => true)
      = ((newInclusionMask dbOne).fill (dbOne.filter ctxOne),
          newThreadCache dbOne 20, []) :=
  minPopulation_gate dbOne (buildNn dbOne) (3 / 2) (newThreadCache dbOne 20)
    (newInclusionMask dbOne) ctxOne (fun _ _ => true) (by decide)

/-- A four-record database (salaries 0, 1, 3, 100) for exercising cache
reuse. -/
def dbFour : Database :=
  { employers := ["A"], jobTitles := ["T"], years := [2020],
    employees :=
      [{ id := 0, employer := 0, jobTitle := 0, year := 0, salary := 0 },
       { id := 1, employer := 0, jobTitle := 0, year := 0, salary := 1 },
       { id := 2, employer := 0, jobTitle := 0, year := 0, salary := 3 },
       { id := 3, employer := 0, jobTitle := 0, year := 0, salary := 100 }] }

set_option maxRecDepth 100000 in
unseal Rat.add Rat.mul Rat.inv Rat.sub in
/-- C2 counterexample: cache reuse is *not* residue-free.  With `K = 2` and
threshold 0, run the pipeline on mask `{0, 3}`: record 0 finds a single
in-mask neighbour, so its neighbourhood buffer is re-sliced from length 2
to length 1 — and nothing ever grows it back.  Rerunning the pipeline on
mask `{0, 1, 2}` with that cache therefore gives record 0 only one
neighbour where a fresh cache gives two, and the visitor sequences differ:
`[(0, 1), (1, 9/10), (2, 5/4)]` with the reused cache versus
`[(0, 11/12), (1, 6/5), (2, 11/12)]` with a fresh one. -/
theorem lofCache_reuse_cex :
    (((lofFindOutliers dbFour (buildNn dbFour) 0 (newThreadCache dbFour 2)
          ⟨[true, false, false, true], 2⟩ (fun _ _ => true)).1.neighborhoods.getD 0 []).length
        = 1) ∧
    (lofFindOutliers dbFour (buildNn dbFour) 0
        (lofFindOutliers dbFour (buildNn dbFour) 0 (newThreadCache dbFour 2)
          ⟨[true, false, false, true], 2⟩ (fun _ _ => true)).1
        ⟨[true, true, true, false], 3⟩ (fun _ _ => true)).2
      ≠ (lofFindOutliers dbFour (buildNn dbFour) 0 (newThreadCache dbFour 2)
          ⟨[true, true, true, false], 3⟩ (fun _ _ => true)).2 := by
  constructor
  · decide
  · decide

/-!  ## The superset enumeration

`RecursivePermute(slice, handler)` drives the handler over every
boolean assignment of `slice`: it writes `false` into the head position and
recurses on the tail, then writes `true` and recurses again, calling the
handler once per complete assignment (so "excluded" is explored before
"included" for each value, and earlier positions vary outermost).  The model
passes the assignment to the handler explicitly and collects everything the
handler emits. -/
def recursivePermute {α : Type} : Nat → (List Bool → List α) → List α
  | 0, handler => handler []
  | n + 1, handler =>
    recursivePermute n (fun rest => handler (false :: rest)) ++
    recursivePermute n (fun rest => handler (true :: rest))

/-- The assignment sequence `RecursivePermute` walks for a slice of length
`n`, in visit order. -/
def perms : Nat → List (List Bool)
  | 0 => [[]]
  | n + 1 => (perms n).map (false :: ·) ++ (perms n).map (true :: ·)

theorem recursivePermute_eq_flatMap {α : Type} (n : Nat) (handler : List Bool → List α) :
    recursivePermute n handler = (perms n).flatMap handler := by
  induction n generalizing handler with
  | zero => simp [recursivePermute, perms]
  | succ n ih =>
    simp [recursivePermute, perms, ih, List.flatMap_append, List.flatMap_map]

/-- The numeric value of an assignment read as a binary number, first
position most significant, `true` (included) = 1. -/
def bitsToNat (bs : List Bool) : Nat :=
  bs.foldl (fun acc b => 2 * acc + (if b then 1 else 0)) 0

theorem bitsToNat_foldl (bs : List Bool) (a : Nat) :
    bs.foldl (fun acc b => 2 * acc + (if b then 1 else 0)) a
      = a * 2 ^ bs.length + bitsToNat bs := by
  induction bs generalizing a with
  | nil => simp [bitsToNat]
  | cons b rest ih =>
    simp only [bitsToNat, List.foldl_cons, List.length_cons]
    rw [ih (2 * a + if b then 1 else 0), ih (2 * 0 + if b then 1 else 0), pow_succ]
    ring

theorem bitsToNat_cons_false (bs : List Bool) :
    bitsToNat (false :: bs) = bitsToNat bs := by
  simp [bitsToNat]

theorem bitsToNat_cons_true (bs : List Bool) :
    bitsToNat (true :: bs) = 2 ^ bs.length + bitsToNat bs := by
  simp only [bitsToNat, List.foldl_cons]
  rw [bitsToNat_foldl]
  simp [bitsToNat]

theorem bitsToNat_lt (bs : List Bool) : bitsToNat bs < 2 ^ bs.length := by
  induction bs with
  | nil => simp [bitsToNat]
  | cons b rest ih =>
    cases b
    · rw [bitsToNat_cons_false]
      calc bitsToNat rest < 2 ^ rest.length := ih
        _ ≤ 2 ^ (false :: rest).length := by
            simp only [List.length_cons, pow_succ]; omega
    · rw [bitsToNat_cons_true]
      simp only [List.length_cons, pow_succ]
      omega

theorem bitsToNat_eq_zero {bs : List Bool} (h : bitsToNat bs = 0) :
    bs = List.replicate bs.length false := by
  induction bs with
  | nil => rfl
  | cons b rest ih =>
    cases b
    · rw [bitsToNat_cons_false] at h
      simp only [List.length_cons, List.replicate_succ]
      exact congrArg (List.cons false) (ih h)
    · rw [bitsToNat_cons_true] at h
      have := Nat.pos_pow_of_pos (n := 2) rest.length (by omega)
      omega

theorem mem_perms_length {n : Nat} {bs : List Bool} (h : bs ∈ perms n) :
    bs.length = n := by
  induction n generalizing bs with
  | zero => simp [perms] at h; simp [h]
  | succ n ih =>
    simp only [perms, List.mem_append, List.mem_map] at h
    rcases h with ⟨a, ha, rfl⟩ | ⟨a, ha, rfl⟩ <;> simp [ih ha]

theorem length_mem_perms {n : Nat} {bs : List Bool} (h : bs.length = n) :
    bs ∈ perms n := by
  induction bs generalizing n with
  | nil => subst h; simp [perms]
  | cons b rest ih =>
    subst h
    simp only [List.length_cons, perms, List.mem_append, List.mem_map]
    cases b
    · exact Or.inl ⟨rest, ih rfl, rfl⟩
    · exact Or.inr ⟨rest, ih rfl, rfl⟩

theorem perms_head (n : Nat) :
    ∃ t, perms n = List.replicate n false :: t := by
  induction n with
  | zero => exact ⟨[], rfl⟩
  | succ n ih =>
    obtain ⟨t, ht⟩ := ih
    exact ⟨t.map (false :: ·) ++ (perms n).map (true :: ·),
      by simp [perms, ht, List.replicate_succ]⟩

theorem perms_map_bitsToNat (n : Nat) :
    (perms n).map bitsToNat = List.range (2 ^ n) := by
  induction n with
  | zero => decide
  | succ n ih =>
    have h1 : ((perms n).map (false :: ·)).map bitsToNat = (perms n).map bitsToNat := by
      rw [List.map_map]
      exact List.map_congr_left (fun bs _ => bitsToNat_cons_false bs)
    have h2 : ((perms n).map (true :: ·)).map bitsToNat
        = ((perms n).map bitsToNat).map (fun v => 2 ^ n + v) := by
      rw [List.map_map, List.map_map]
      exact List.map_congr_left (fun bs hbs => by
        simp only [Function.comp_apply]
        rw [bitsToNat_cons_true, mem_perms_length hbs])
    calc (perms (n + 1)).map bitsToNat
        = ((perms n).map (false :: ·)).map bitsToNat
            ++ ((perms n).map (true :: ·)).map bitsToNat := by
          simp [perms]
      _ = List.range (2 ^ n) ++ (List.range (2 ^ n)).map (fun v => 2 ^ n + v) := by
          rw [h1, h2, ih]
      _ = List.range (2 ^ n + 2 ^ n) := (List.range_add _ _).symm
      _ = List.range (2 ^ (n + 1)) := by rw [pow_succ]; ring_nf

theorem flatMap_singleton_eq_map {α β : Type} (l : List α) (f : α → β) :
    l.flatMap (fun x => [f x]) = l.map f := by
  induction l with
  | nil => rfl
  | cons x rest ih => simp [List.flatMap_cons, ih]

theorem range_pair_product (A B : Nat) :
    (List.range A).flatMap (fun a => (List.range B).map (fun b => a * B + b))
      = List.range (A * B) := by
  induction A with
  | zero => simp
  | succ A ih =>
    rw [List.range_succ, List.flatMap_append, ih, Nat.succ_mul, List.range_add]
    congr 1
    simp [List.flatMap_cons]

theorem range_triple_product (A B C : Nat) :
    (List.range A).flatMap (fun a =>
        (List.range B).flatMap (fun b =>
          (List.range C).map (fun c => (a * B + b) * C + c)))
      = List.range (A * B * C) := by
  have h1 : ∀ a : Nat,
      (List.range B).flatMap (fun b => (List.range C).map (fun c => (a * B + b) * C + c))
        = (List.range (B * C)).map (fun w => a * (B * C) + w) := by
    intro a
    calc (List.range B).flatMap (fun b => (List.range C).map (fun c => (a * B + b) * C + c))
        = (List.range B).flatMap (fun b =>
            ((List.range C).map (fun c => b * C + c)).map (fun w => a * (B * C) + w)) := by
          congr 1
          funext b
          rw [List.map_map]
          refine List.map_congr_left (fun c _ => ?_)
          simp only [Function.comp_apply]
          ring
      _ = ((List.range B).flatMap (fun b => (List.range C).map (fun c => b * C + c))).map
            (fun w => a * (B * C) + w) := (List.map_flatMap _ _ _).symm
      _ = (List.range (B * C)).map (fun w => a * (B * C) + w) := by
          rw [range_pair_product]
  calc (List.range A).flatMap (fun a =>
          (List.range B).flatMap (fun b =>
            (List.range C).map (fun c => (a * B + b) * C + c)))
      = (List.range A).flatMap (fun a =>
          (List.range (B * C)).map (fun w => a * (B * C) + w)) := by
        congr 1
        funext a
        exact h1 a
    _ = List.range (A * (B * C)) := range_pair_product _ _
    _ = List.range (A * B * C) := by rw [Nat.mul_assoc]

/-- `(perms k).flatMap (g ∘ bitsToNat)` enumerates `g` over the numeric
values `0, …, 2^k − 1` in order. -/
theorem perms_flatMap_bitsToNat {β : Type} (k : Nat) (g : Nat → List β) :
    (perms k).flatMap (fun bs => g (bitsToNat bs)) = (List.range (2 ^ k)).flatMap g := by
  rw [← perms_map_bitsToNat, List.flatMap_map]

theorem perms_map_bitsToNat_comp {β : Type} (k : Nat) (g : Nat → β) :
    (perms k).map (fun bs => g (bitsToNat bs)) = (List.range (2 ^ k)).map g := by
  rw [← perms_map_bitsToNat, List.map_map]
  rfl

/-- The context built for one leaf of the enumeration: the baseline prefix
of each dimension stays `true`, the flippable suffixes carry the assignment
chosen by the three nested `RecursivePermute` calls. -/
def mkScanContext (pe pj py : Nat) (e j y : List Bool) : Context :=
  { employersIncluded := List.replicate pe true ++ e,
    jobTitlesIncluded := List.replicate pj true ++ j,
    yearsIncluded := List.replicate py true ++ y }

/-- The leaves of the nested enumeration of main.go, in dispatch order:
`RecursivePermute` over the flippable employers (outermost), then the
flippable job titles, then the flippable years (innermost); the innermost
handler snapshots the context (the Go worker copies it before the next
mutation). -/
def enumLeaves (pe pj py me mj my : Nat) : List Context :=
  recursivePermute me (fun e =>
    recursivePermute mj (fun j =>
      recursivePermute my (fun y => [mkScanContext pe pj py e j y])))

/-- The baseline context: prefixes included, every flippable value excluded. -/
def baselineContext (pe pj py me mj my : Nat) : Context :=
  mkScanContext pe pj py (List.replicate me false) (List.replicate mj false)
    (List.replicate my false)

/-- Numeric value of a leaf: the flippable assignment read as one binary
number, employer bits most significant, then job titles, then years. -/
def ctxVal (pe pj py mj my : Nat) (c : Context) : Nat :=
  (bitsToNat (c.employersIncluded.drop pe) * 2 ^ mj
      + bitsToNat (c.jobTitlesIncluded.drop pj)) * 2 ^ my
    + bitsToNat (c.yearsIncluded.drop py)

theorem drop_replicate_append {α : Type} (k : Nat) (a : α) (l : List α) :
    (List.replicate k a ++ l).drop k = l := by
  have h := List.drop_left (List.replicate k a) l
  rwa [List.length_replicate] at h

theorem take_replicate_append {α : Type} (k : Nat) (a : α) (l : List α) :
    (List.replicate k a ++ l).take k = List.replicate k a := by
  have h := List.take_left (List.replicate k a) l
  rwa [List.length_replicate] at h

theorem ctxVal_mkScanContext (pe pj py mj my : Nat) (e j y : List Bool) :
    ctxVal pe pj py mj my (mkScanContext pe pj py e j y)
      = (bitsToNat e * 2 ^ mj + bitsToNat j) * 2 ^ my + bitsToNat y := by
  simp [ctxVal, mkScanContext, drop_replicate_append]

theorem enumLeaves_eq (pe pj py me mj my : Nat) :
    enumLeaves pe pj py me mj my
      = (perms me).flatMap (fun e =>
          (perms mj).flatMap (fun j =>
            (perms my).map (fun y => mkScanContext pe pj py e j y))) := by
  rw [enumLeaves]
  simp only [recursivePermute_eq_flatMap]
  exact congrArg (List.flatMap (perms me)) (funext fun e =>
    congrArg (List.flatMap (perms mj)) (funext fun j =>
      flatMap_singleton_eq_map _ _))

/-- The enumeration visits the leaves exactly in binary counting order:
position in the leaf list = numeric value of the flippable assignment
(employers most significant, excluded = 0 before included = 1). -/
theorem enumLeaves_map_ctxVal (pe pj py me mj my : Nat) :
    (enumLeaves pe pj py me mj my).map (ctxVal pe pj py mj my)
      = List.range (2 ^ (me + mj + my)) := by
  calc (enumLeaves pe pj py me mj my).map (ctxVal pe pj py mj my)
      = (perms me).flatMap (fun e =>
          (perms mj).flatMap (fun j =>
            (perms my).map (fun y =>
              (bitsToNat e * 2 ^ mj + bitsToNat j) * 2 ^ my + bitsToNat y))) := by
        rw [enumLeaves_eq, List.map_flatMap]
        refine congrArg (List.flatMap (perms me)) (funext fun e => ?_)
        rw [List.map_flatMap]
        refine congrArg (List.flatMap (perms mj)) (funext fun j => ?_)
        rw [List.map_map]
        exact List.map_congr_left (fun y _ => ctxVal_mkScanContext pe pj py mj my e j y)
    _ = (List.range (2 ^ me)).flatMap (fun a =>
          (List.range (2 ^ mj)).flatMap (fun b =>
            (List.range (2 ^ my)).map (fun c => (a * 2 ^ mj + b) * 2 ^ my + c))) := by
        calc (perms me).flatMap (fun e =>
                (perms mj).flatMap (fun j =>
                  (perms my).map (fun y =>
                    (bitsToNat e * 2 ^ mj + bitsToNat j) * 2 ^ my + bitsToNat y)))
            = (perms me).flatMap (fun e =>
                (perms mj).flatMap (fun j =>
                  (List.range (2 ^ my)).map (fun c =>
                    (bitsToNat e * 2 ^ mj + bitsToNat j) * 2 ^ my + c))) := by
              refine congrArg (List.flatMap (perms me)) (funext fun e => ?_)
              exact congrArg (List.flatMap (perms mj)) (funext fun j =>
                perms_map_bitsToNat_comp my _)
          _ = (perms me).flatMap (fun e =>
                (List.range (2 ^ mj)).flatMap (fun b =>
                  (List.range (2 ^ my)).map (fun c =>
                    (bitsToNat e * 2 ^ mj + b) * 2 ^ my + c))) := by
              refine congrArg (List.flatMap (perms me)) (funext fun e => ?_)
              exact perms_flatMap_bitsToNat mj (fun b =>
                (List.range (2 ^ my)).map (fun c =>
                  (bitsToNat e * 2 ^ mj + b) * 2 ^ my + c))
          _ = (List.range (2 ^ me)).flatMap (fun a =>
                (List.range (2 ^ mj)).flatMap (fun b =>
                  (List.range (2 ^ my)).map (fun c => (a * 2 ^ mj + b) * 2 ^ my + c))) :=
              perms_flatMap_bitsToNat me (fun a =>
                (List.range (2 ^ mj)).flatMap (fun b =>
                  (List.range (2 ^ my)).map (fun c => (a * 2 ^ mj + b) * 2 ^ my + c)))
    _ = List.range (2 ^ me * 2 ^ mj * 2 ^ my) := range_triple_product _ _ _
    _ = List.range (2 ^ (me + mj + my)) := by rw [← pow_add, ← pow_add]

/-- C4: the nested `RecursivePermute` enumeration over a baseline with `m =
me + mj + my` flippable values visits exactly `2 ^ m` leaves, in binary
counting order (`ctxVal`: employers outermost / most significant, then job
titles, then years, with excluded = 0 explored before included = 1); the
leaves are pairwise distinct; the first leaf is exactly the baseline (all
flippables excluded) and it does not recur among the later leaves — so the
dispatch loop, which skips only the first leaf, skips exactly the baseline;
every assignment of the flippable values occurs as a leaf; and the baseline
prefix of every dimension stays included in every leaf. -/
theorem enumeration_spec (pe pj py me mj my : Nat) :
    (enumLeaves pe pj py me mj my).map (ctxVal pe pj py mj my)
        = List.range (2 ^ (me + mj + my)) ∧
    (enumLeaves pe pj py me mj my).length = 2 ^ (me + mj + my) ∧
    (enumLeaves pe pj py me mj my).Nodup ∧
    (∃ rest, enumLeaves pe pj py me mj my
        = baselineContext pe pj py me mj my :: rest ∧
        baselineContext pe pj py me mj my ∉ rest) ∧
    (∀ e j y : List Bool, e.length = me → j.length = mj → y.length = my →
        mkScanContext pe pj py e j y ∈ enumLeaves pe pj py me mj my) ∧
    (∀ c ∈ enumLeaves pe pj py me mj my,
        c.employersIncluded.take pe = List.replicate pe true ∧
        c.jobTitlesIncluded.take pj = List.replicate pj true ∧
        c.yearsIncluded.take py = List.replicate py true) := by
  have hmap := enumLeaves_map_ctxVal pe pj py me mj my
  have hlen : (enumLeaves pe pj py me mj my).length = 2 ^ (me + mj + my) := by
    have h := congrArg List.length hmap
    simpa using h
  have hnodup : (enumLeaves pe pj py me mj my).Nodup :=
    List.Nodup.of_map _ (hmap ▸ List.nodup_range _)
  have hhead : ∃ t, enumLeaves pe pj py me mj my
      = baselineContext pe pj py me mj my :: t := by
    obtain ⟨te, he⟩ := perms_head me
    obtain ⟨tj, hj⟩ := perms_head mj
    obtain ⟨ty, hy⟩ := perms_head my
    rw [enumLeaves_eq, he, hj, hy]
    exact ⟨_, rfl⟩
  obtain ⟨rest, hrest⟩ := hhead
  refine ⟨hmap, hlen, hnodup, ⟨rest, hrest, ?_⟩, ?_, ?_⟩
  · have h := hrest ▸ hnodup
    exact (List.nodup_cons.mp h).1
  · intro e j y he hj hy
    rw [enumLeaves_eq]
    exact List.mem_flatMap.mpr ⟨e, length_mem_perms he,
      List.mem_flatMap.mpr ⟨j, length_mem_perms hj,
        List.mem_map.mpr ⟨y, length_mem_perms hy, rfl⟩⟩⟩
  · intro c hc
    rw [enumLeaves_eq] at hc
    obtain ⟨e, -, hc⟩ := List.mem_flatMap.mp hc
    obtain ⟨j, -, hc⟩ := List.mem_flatMap.mp hc
    obtain ⟨y, -, rfl⟩ := List.mem_map.mp hc
    exact ⟨take_replicate_append pe true e, take_replicate_append pj true j,
      take_replicate_append py true y⟩

/-- Witness for C4 at one flippable value per dimension: the assignment
(employer included, job title excluded, year included) occurs among the
leaves. -/
theorem enumeration_spec_witness :
    mkScanContext 1 1 1 [true] [false] [true] ∈ enumLeaves 1 1 1 1 1 1 :=
  (enumeration_spec 1 1 1 1 1 1).2.2.2.2.1 [true] [false] [true] rfl rfl rfl

/-!  ## Bounds-checked scoring pipeline

A second rendering of the three scoring passes in which every slice access
the Go code performs is guarded the way the Go runtime guards it: an
out-of-range index (or the `Neighborhoods[i][numNeighbors-1]` read with
`numNeighbors = 0`, whose `uint64` underflow indexes position `2^64 − 1`)
makes the whole pipeline return `none` — the model of a runtime panic.
The checks are conservative: `KNearest` may stop scanning early once the
output buffer is full, but the checked version guards the inclusion-bit
read of every neighbour in the row, so `some` results are panic-free a
fortiori. -/

/-- Guard a list of accesses: `none` as soon as any single access is out of
bounds, otherwise the list of read values. -/
def seqOptions {α β : Type} (g : α → Option β) : List α → Option (List β)
  | [] => some []
  | a :: rest => do
    let b ← g a
    let bs ← seqOptions g rest
    some (b :: bs)

/-- `IsIncluded` reads byte `i / 8` of the mask; the Go mask has
`(n + 7) / 8` bytes for `n` records. -/
def isIncludedChecked (im : InclusionMask) (i : Nat) : Option Bool :=
  if i / 8 < (im.mask.length + 7) / 8 then some (im.isIncluded i) else none

/-- `KNearest`, checked: every scanned neighbour's inclusion bit must be
readable, and the write `out[validNeighbors]` panics exactly when the
output buffer is empty and an included neighbour is encountered. -/
def kNearestChecked (row : List Nat) (im : InclusionMask) (k : Nat) :
    Option (List Nat) := do
  let _ ← seqOptions (fun j => isIncludedChecked im j) row
  if k = 0 && row.any (fun j => im.isIncluded j) then none
  else some (kNearest row im k)

/-- One checked iteration of the core-distance pass. -/
def coreAtChecked (db : Database) (nn : List (List Nat)) (im : InclusionMask)
    (cache : LofCache) (i : Nat) : Option (List Nat × Nat) := do
  let inc ← isIncludedChecked im i
  if inc then do
    let row ← nn[i]?
    let buf ← cache.neighborhoods[i]?
    let nbrs ← kNearestChecked row im buf.length
    let last ← nbrs.getLast?
    let _ ← db.employees[i]?
    let _ ← db.employees[last]?
    some (nbrs, db.dist i last)
  else
    some (cache.neighborhoods.getD i [], cache.coreDistance.getD i 0)

/-- `computeCoreDistances`, checked. -/
def computeCoreDistancesChecked (db : Database) (nn : List (List Nat))
    (im : InclusionMask) (cache : LofCache) : Option LofCache := do
  let pairs ← seqOptions (coreAtChecked db nn im cache)
    (List.range cache.coreDistance.length)
  some { cache with neighborhoods := pairs.map Prod.fst,
                    coreDistance := pairs.map Prod.snd }

/-- The two reads the density pass performs per neighbour `j`:
`Employees[j]` and `CoreDistance[j]`. -/
def reachReadsChecked (db : Database) (cache : LofCache) (j : Nat) : Option Unit := do
  let _ ← db.employees[j]?
  let _ ← cache.coreDistance[j]?
  pure ()

/-- One checked iteration of the density pass. -/
def lrdAtChecked (db : Database) (im : InclusionMask) (cache : LofCache)
    (i : Nat) : Option ℚ := do
  let inc ← isIncludedChecked im i
  if inc then do
    let nbrs ← cache.neighborhoods[i]?
    let _ ← seqOptions (reachReadsChecked db cache) nbrs
    let _ ← db.employees[i]?
    some ((nbrs.length : ℚ) / reachSum db cache i)
  else
    some (cache.lrds.getD i 0)

/-- `computeLrds`, checked. -/
def computeLrdsChecked (db : Database) (im : InclusionMask) (cache : LofCache) :
    Option LofCache := do
  let vals ← seqOptions (lrdAtChecked db im cache) (List.range cache.lrds.length)
  some { cache with lrds := vals }

/-- The score read of the third pass, checked. -/
def lofScoreChecked (cache : LofCache) (i : Nat) : Option ℚ := do
  let nbrs ← cache.neighborhoods[i]?
  let _ ← seqOptions (fun j => cache.lrds[j]?) nbrs
  let _ ← cache.lrds[i]?
  some (lofScore cache i)

/-- The loop of `computeLofs`, checked. -/
def lofsGoChecked (cache : LofCache) (im : InclusionMask) (threshold : ℚ)
    (handler : Nat → ℚ → Bool) : List Nat → Option (List (Nat × ℚ))
  | [] => some []
  | i :: rest => do
    let inc ← isIncludedChecked im i
    if inc then do
      let score ← lofScoreChecked cache i
      if threshold ≤ score then
        if handler i score then do
          let tail ← lofsGoChecked cache im threshold handler rest
          some ((i, score) :: tail)
        else some [(i, score)]
      else lofsGoChecked cache im threshold handler rest
    else lofsGoChecked cache im threshold handler rest

/-- `Lof.FindOutliers`, checked end to end. -/
def lofFindOutliersChecked (db : Database) (nn : List (List Nat)) (threshold : ℚ)
    (cache : LofCache) (im : InclusionMask) (handler : Nat → ℚ → Bool) :
    Option (LofCache × List (Nat × ℚ)) := do
  let c1 ← computeCoreDistancesChecked db nn im cache
  let c2 ← computeLrdsChecked db im c1
  let visits ← lofsGoChecked c2 im threshold handler (List.range c2.lrds.length)
  some (c2, visits)

/-- A cache in the state the scorer expects: all three arrays sized to the
record count and every neighbourhood buffer non-empty.  `NewThreadCache`
establishes this (buffers of length `K ≥ 1`), and processing masks with at
least two included records preserves it. -/
def CacheReady (db : Database) (cache : LofCache) : Prop :=
  cache.neighborhoods.length = db.employees.length ∧
  cache.coreDistance.length = db.employees.length ∧
  cache.lrds.length = db.employees.length ∧
  ∀ l ∈ cache.neighborhoods, l ≠ []

/-- A neighbour index in the state `precomputeDistances` guarantees: one row
per record, each row a distance-sorted permutation of all other indices
(only the permutation part matters for safety). -/
def NnReady (db : Database) (nn : List (List Nat)) : Prop :=
  nn.length = db.employees.length ∧
  (∀ i < db.employees.length,
    (nn.getD i []).Perm
      ((List.range db.employees.length).filter (fun t => !(t = i : Bool)))) ∧
  ∀ i < db.employees.length,
    (nn.getD i []).Pairwise (fun a b => db.dist i a ≤ db.dist i b)

theorem seqOptions_eq_some {α β : Type} (g : α → Option β) (f : α → β) (l : List α)
    (h : ∀ a ∈ l, g a = some (f a)) : seqOptions g l = some (l.map f) := by
  induction l with
  | nil => rfl
  | cons a rest ih =>
    rw [seqOptions, h a (List.mem_cons_self a rest),
      ih (fun x hx => h x (List.mem_cons_of_mem _ hx))]
    rfl

theorem popcount_aux (l : List Bool) :
    ((List.range l.length).filter (fun i => l.getD i false)).length
      = (l.filter id).length := by
  induction l with
  | nil => rfl
  | cons b t ih =>
    have hcomp : ((fun i => (b :: t).getD i false) ∘ Nat.succ)
        = (fun i => t.getD i false) := by
      funext i
      simp
    rw [List.length_cons, List.range_succ_eq_map, List.filter_cons, List.filter_map, hcomp]
    cases b
    · simpa using ih
    · simpa using ih

/-- The mask's bit count equals the number of record indices whose bit is
set. -/
theorem popcount_eq_length_includedIndices (im : InclusionMask) :
    im.popcount = im.includedIndices.length :=
  (popcount_aux im.mask).symm

theorem exists_ne_of_two_le_length {l : List Nat} (hnd : l.Nodup) (hlen : 2 ≤ l.length)
    {i : Nat} (hi : i ∈ l) : ∃ j ∈ l, j ≠ i := by
  cases l with
  | nil => simp at hlen
  | cons a t =>
    cases t with
    | nil => simp at hlen
    | cons b r =>
      by_cases hai : a = i
      · subst hai
        refine ⟨b, by simp, fun hbi => ?_⟩
        have h := (List.nodup_cons.mp hnd).1
        simp [hbi] at h
      · exact ⟨a, by simp, hai⟩

/-- With at least two bits set, every included record has an included
companion. -/
theorem exists_other_included {im : InclusionMask} {i : Nat}
    (hpop : 2 ≤ im.popcount) (hi : im.isIncluded i = true) (hin : i < im.mask.length) :
    ∃ j, j < im.mask.length ∧ im.isIncluded j = true ∧ j ≠ i := by
  have hlen : 2 ≤ im.includedIndices.length := by
    rw [← popcount_eq_length_includedIndices]
    exact hpop
  have hnd : im.includedIndices.Nodup := (List.nodup_range _).filter _
  have himem : i ∈ im.includedIndices := by
    simp only [InclusionMask.includedIndices, List.mem_filter, List.mem_range]
    exact ⟨hin, hi⟩
  obtain ⟨j, hj, hji⟩ := exists_ne_of_two_le_length hnd hlen himem
  simp only [InclusionMask.includedIndices, List.mem_filter, List.mem_range] at hj
  exact ⟨j, hj.1, hj.2, hji⟩

theorem kNearestChecked_eq_some {im : InclusionMask} {row : List Nat} {k : Nat}
    (hbits : ∀ j ∈ row, isIncludedChecked im j = some (im.isIncluded j))
    (hk : k ≠ 0) :
    kNearestChecked row im k = some (kNearest row im k) := by
  rw [kNearestChecked,
    seqOptions_eq_some (fun j => isIncludedChecked im j)
      (fun j => im.isIncluded j) row hbits]
  simp [hk]

theorem take_ne_nil {α : Type} {l : List α} {k : Nat} (hl : l ≠ []) (hk : k ≠ 0) :
    l.take k ≠ [] := by
  intro h
  rcases List.take_eq_nil_iff.mp h with h | h
  · exact hk h
  · exact hl h

set_option maxRecDepth 4000 in
theorem computeCoreDistancesChecked_eq_some
    (db : Database) (nn : List (List Nat)) (im : InclusionMask) (cache : LofCache)
    (hmask : im.mask.length = db.employees.length)
    (hpop : 2 ≤ im.popcount)
    (hnnlen : nn.length = db.employees.length)
    (hrows : ∀ i < db.employees.length, (nn.getD i []).Perm
        ((List.range db.employees.length).filter (fun t => !(t = i : Bool))))
    (hNlen : cache.neighborhoods.length = db.employees.length)
    (hClen : cache.coreDistance.length = db.employees.length)
    (hNne : ∀ l ∈ cache.neighborhoods, l ≠ []) :
    computeCoreDistancesChecked db nn im cache
      = some (computeCoreDistances db nn im cache) := by
  have hbyte : ∀ i, i < db.employees.length →
      isIncludedChecked im i = some (im.isIncluded i) := by
    intro i hi
    have hb : i / 8 < (im.mask.length + 7) / 8 := by rw [hmask]; omega
    simp [isIncludedChecked, hb]
  have hrowmem : ∀ i, i < db.employees.length →
      ∀ j ∈ nn.getD i [], j < db.employees.length ∧ j ≠ i := by
    intro i hi j hj
    have hm := (hrows i hi).mem_iff.mp hj
    have h1 := List.mem_filter.mp hm
    refine ⟨List.mem_range.mp h1.1, ?_⟩
    have h2 := h1.2
    simpa using h2
  have hstep : ∀ i ∈ List.range cache.coreDistance.length,
      coreAtChecked db nn im cache i = some (coreAt db nn im cache i) := by
    intro i hmem
    have hin : i < db.employees.length := hClen ▸ List.mem_range.mp hmem
    by_cases hinc : im.isIncluded i = true
    · have hiN : i < nn.length := by omega
      have hiC : i < cache.neighborhoods.length := by omega
      have hgg : nn.getD i [] = nn[i] := List.getD_eq_getElem nn [] hiN
      have hbb : cache.neighborhoods.getD i [] = cache.neighborhoods[i] :=
        List.getD_eq_getElem cache.neighborhoods [] hiC
      have hrowq : nn[i]? = some nn[i] := List.getElem?_eq_getElem hiN
      have hbufq : cache.neighborhoods[i]? = some cache.neighborhoods[i] :=
        List.getElem?_eq_getElem hiC
      have hbufne : cache.neighborhoods[i] ≠ [] := hNne _ (List.getElem_mem hiC)
      have hbuflen : cache.neighborhoods[i].length ≠ 0 :=
        fun h => hbufne (List.length_eq_zero.mp h)
      have hrowmem2 : ∀ j ∈ nn[i], j < db.employees.length ∧ j ≠ i := by
        intro j hj
        exact hrowmem i hin j (by rw [hgg]; exact hj)
      have hknn : kNearestChecked nn[i] im cache.neighborhoods[i].length
          = some (kNearest nn[i] im cache.neighborhoods[i].length) :=
        kNearestChecked_eq_some (fun j hj => hbyte j (hrowmem2 j hj).1) hbuflen
      have hfil : nn[i].filter (fun j => im.isIncluded j) ≠ [] := by
        intro hnil
        obtain ⟨j, hjn, hjinc, hji⟩ :=
          exists_other_included hpop hinc (by omega : i < im.mask.length)
        have hjrow : j ∈ nn[i] := by
          rw [← hgg]
          apply (hrows i hin).mem_iff.mpr
          refine List.mem_filter.mpr ⟨List.mem_range.mpr (by omega), ?_⟩
          simp [hji]
        exact (List.filter_eq_nil_iff.mp hnil) j hjrow hjinc
      have hnbrsne : kNearest nn[i] im cache.neighborhoods[i].length ≠ [] :=
        take_ne_nil hfil hbuflen
      have hlast : (kNearest nn[i] im cache.neighborhoods[i].length).getLast?
          = some ((kNearest nn[i] im cache.neighborhoods[i].length).getLast hnbrsne) :=
        List.getLast?_eq_getLast _ hnbrsne
      have hlastlt : (kNearest nn[i] im cache.neighborhoods[i].length).getLast hnbrsne
          < db.employees.length := by
        have hsub : kNearest nn[i] im cache.neighborhoods[i].length ⊆ nn[i] :=
          ((List.take_sublist _ _).trans (List.filter_sublist _)).subset
        exact (hrowmem2 _ (hsub (List.getLast_mem hnbrsne))).1
      have hei : db.employees[i]? = some db.employees[i] :=
        List.getElem?_eq_getElem hin
      have hef : db.employees[(kNearest nn[i] im
            cache.neighborhoods[i].length).getLast hnbrsne]?
          = some db.employees[(kNearest nn[i] im
            cache.neighborhoods[i].length).getLast hnbrsne] :=
        List.getElem?_eq_getElem hlastlt
      simp [coreAtChecked, hbyte i hin, hinc, hrowq, hbufq, hknn, hlast, hei, hef,
        coreAt, hgg, hbb]
    · simp only [Bool.not_eq_true] at hinc
      simp [coreAtChecked, hbyte i hin, hinc, coreAt]
  have hY : ({ cache with
      neighborhoods := ((List.range cache.coreDistance.length).map
          (coreAt db nn im cache)).map Prod.fst,
      coreDistance := ((List.range cache.coreDistance.length).map
          (coreAt db nn im cache)).map Prod.snd } : LofCache)
      = computeCoreDistances db nn im cache := by
    rw [computeCoreDistances, List.map_map, List.map_map]
    rfl
  rw [computeCoreDistancesChecked,
    seqOptions_eq_some _ (coreAt db nn im cache) _ hstep]
  exact congrArg some hY

theorem isIncludedChecked_eq_some {im : InclusionMask} {n i : Nat}
    (hmask : im.mask.length = n) (hi : i < n) :
    isIncludedChecked im i = some (im.isIncluded i) := by
  have hb : i / 8 < (im.mask.length + 7) / 8 := by omega
  simp [isIncludedChecked, hb]

theorem computeLrdsChecked_eq_some
    (db : Database) (im : InclusionMask) (cache : LofCache)
    (hmask : im.mask.length = db.employees.length)
    (hNlen : cache.neighborhoods.length = db.employees.length)
    (hClen : cache.coreDistance.length = db.employees.length)
    (hLlen : cache.lrds.length = db.employees.length)
    (hent : ∀ i, i < db.employees.length → im.isIncluded i = true →
        ∀ j ∈ cache.neighborhoods.getD i [], j < db.employees.length) :
    computeLrdsChecked db im cache = some (computeLrds db im cache) := by
  have hstep : ∀ i ∈ List.range cache.lrds.length,
      lrdAtChecked db im cache i = some (lrdAt db im cache i) := by
    intro i hmem
    have hin : i < db.employees.length := hLlen ▸ List.mem_range.mp hmem
    by_cases hinc : im.isIncluded i = true
    · have hiC : i < cache.neighborhoods.length := by omega
      have hbb : cache.neighborhoods.getD i [] = cache.neighborhoods[i] :=
        List.getD_eq_getElem _ [] hiC
      have hbufq : cache.neighborhoods[i]? = some cache.neighborhoods[i] :=
        List.getElem?_eq_getElem hiC
      have hmapm : seqOptions (reachReadsChecked db cache) cache.neighborhoods[i]
          = some (cache.neighborhoods[i].map (fun _ => ())) := by
        apply seqOptions_eq_some
        intro j hj
        have hjn : j < db.employees.length :=
          hent i hin hinc j (by rw [hbb]; exact hj)
        have h1 : db.employees[j]? = some db.employees[j] :=
          List.getElem?_eq_getElem hjn
        have h2 : cache.coreDistance[j]? = some cache.coreDistance[j] :=
          List.getElem?_eq_getElem (by omega)
        rw [reachReadsChecked, h1, h2]
        rfl
      have hei : db.employees[i]? = some db.employees[i] :=
        List.getElem?_eq_getElem hin
      simp [lrdAtChecked, isIncludedChecked_eq_some hmask hin, hinc, hbufq,
        hmapm, hei, lrdAt, hbb]
    · simp only [Bool.not_eq_true] at hinc
      simp [lrdAtChecked, isIncludedChecked_eq_some hmask hin, hinc, lrdAt]
  rw [computeLrdsChecked, seqOptions_eq_some _ (lrdAt db im cache) _ hstep]
  rfl

theorem lofsGoChecked_eq_some
    (cache : LofCache) (im : InclusionMask) (threshold : ℚ) (handler : Nat → ℚ → Bool)
    (n : Nat)
    (hmask : im.mask.length = n)
    (hNlen : cache.neighborhoods.length = n)
    (hLlen : cache.lrds.length = n)
    (hent : ∀ i, i < n → im.isIncluded i = true →
        ∀ j ∈ cache.neighborhoods.getD i [], j < n)
    (l : List Nat) (hl : ∀ i ∈ l, i < n) :
    lofsGoChecked cache im threshold handler l
      = some (lofsGo cache im threshold handler l) := by
  induction l with
  | nil => rfl
  | cons i rest ih =>
    have hin : i < n := hl i (List.mem_cons_self _ _)
    have hrest : ∀ x ∈ rest, x < n := fun x hx => hl x (List.mem_cons_of_mem _ hx)
    by_cases hinc : im.isIncluded i = true
    · have hiC : i < cache.neighborhoods.length := by omega
      have hbb : cache.neighborhoods.getD i [] = cache.neighborhoods[i] :=
        List.getD_eq_getElem _ [] hiC
      have hbufq : cache.neighborhoods[i]? = some cache.neighborhoods[i] :=
        List.getElem?_eq_getElem hiC
      have hmapm : seqOptions (fun j => cache.lrds[j]?) cache.neighborhoods[i]
          = some (cache.neighborhoods[i].map (fun j => cache.lrds.getD j 0)) := by
        apply seqOptions_eq_some
        intro j hj
        have hjn : j < n := hent i hin hinc j (by rw [hbb]; exact hj)
        have hjL : j < cache.lrds.length := by omega
        rw [List.getD_eq_getElem _ 0 hjL]
        exact List.getElem?_eq_getElem hjL
      have hli : cache.lrds[i]? = some cache.lrds[i] :=
        List.getElem?_eq_getElem (by omega)
      have hscore : lofScoreChecked cache i = some (lofScore cache i) := by
        simp [lofScoreChecked, hbufq, hmapm, hli]
      by_cases hsc : threshold ≤ lofScore cache i
      · by_cases hh : handler i (lofScore cache i) = true
        · simp [lofsGoChecked, lofsGo, isIncludedChecked_eq_some hmask hin, hinc,
            hscore, hsc, hh, ih hrest]
        · simp only [Bool.not_eq_true] at hh
          simp [lofsGoChecked, lofsGo, isIncludedChecked_eq_some hmask hin, hinc,
            hscore, hsc, hh]
      · simp [lofsGoChecked, lofsGo, isIncludedChecked_eq_some hmask hin, hinc,
          hscore, hsc, ih hrest]
    · simp only [Bool.not_eq_true] at hinc
      simp [lofsGoChecked, lofsGo, isIncludedChecked_eq_some hmask hin, hinc, ih hrest]

/-- C7: the scoring pipeline cannot panic on a well-counted, sufficiently
populated mask.  For every mask whose `Count` field equals its set-bit count
and whose set-bit count is at least 2 (in particular ≥ 20 when admitted by
the wrapper's gate), with the neighbour index as `precomputeDistances`
guarantees it and a cache in the state `NewThreadCache` establishes and
compliant runs preserve (arrays sized to the record count, no empty
neighbourhood buffer), the bounds-checked pipeline completes — every
included record finds at least one in-mask neighbour, so `numNeighbors ≥ 1`,
the `Neighborhoods[i][numNeighbors-1]` read and all `KNearest` writes are in
bounds — and it computes exactly what the unchecked model computes. -/
theorem pipeline_no_panic (db : Database) (nn : List (List Nat)) (threshold : ℚ)
    (cache : LofCache) (im : InclusionMask) (handler : Nat → ℚ → Bool)
    (hmask : im.mask.length = db.employees.length)
    (_hcount : im.count = im.popcount)
    (hpop : 2 ≤ im.popcount)
    (hnn : NnReady db nn)
    (hcache : CacheReady db cache) :
    lofFindOutliersChecked db nn threshold cache im handler
      = some (lofFindOutliers db nn threshold cache im handler) := by
  obtain ⟨hnnlen, hrows, hsorted⟩ := hnn
  obtain ⟨hNlen, hClen, hLlen, hNne⟩ := hcache
  have h1 := computeCoreDistancesChecked_eq_some db nn im cache hmask hpop hnnlen
    hrows hNlen hClen hNne
  have hN1 : (computeCoreDistances db nn im cache).neighborhoods.length
      = db.employees.length := by
    show ((List.range cache.coreDistance.length).map _).length = _
    simp [hClen]
  have hC1 : (computeCoreDistances db nn im cache).coreDistance.length
      = db.employees.length := by
    show ((List.range cache.coreDistance.length).map _).length = _
    simp [hClen]
  have hL1 : (computeCoreDistances db nn im cache).lrds.length
      = db.employees.length := hLlen
  have hgetD1 : ∀ i, i < db.employees.length →
      (computeCoreDistances db nn im cache).neighborhoods.getD i []
        = (coreAt db nn im cache i).1 := by
    intro i hi
    show ((List.range cache.coreDistance.length).map
      (fun i => (coreAt db nn im cache i).1)).getD i [] = _
    exact getD_map_range _ [] (by omega)
  have hent1 : ∀ i, i < db.employees.length → im.isIncluded i = true →
      ∀ j ∈ (computeCoreDistances db nn im cache).neighborhoods.getD i [],
        j < db.employees.length := by
    intro i hi hinc j hj
    rw [hgetD1 i hi, coreAt, if_pos hinc] at hj
    have hsub : kNearest (nn.getD i []) im
        ((cache.neighborhoods.getD i []).length) ⊆ nn.getD i [] :=
      ((List.take_sublist _ _).trans (List.filter_sublist _)).subset
    have hjrow : j ∈ nn.getD i [] := hsub hj
    have hmem := (hrows i hi).mem_iff.mp hjrow
    exact List.mem_range.mp (List.mem_filter.mp hmem).1
  have h2 := computeLrdsChecked_eq_some db im (computeCoreDistances db nn im cache)
    hmask hN1 hC1 hL1 hent1
  have hL2 : (computeLrds db im (computeCoreDistances db nn im cache)).lrds.length
      = db.employees.length := by
    show ((List.range (computeCoreDistances db nn im cache).lrds.length).map _).length = _
    simp [hL1]
  have hN2 : (computeLrds db im
      (computeCoreDistances db nn im cache)).neighborhoods.length
        = db.employees.length := hN1
  have hent2 : ∀ i, i < db.employees.length → im.isIncluded i = true →
      ∀ j ∈ (computeLrds db im
          (computeCoreDistances db nn im cache)).neighborhoods.getD i [],
        j < db.employees.length := hent1
  have h3 := lofsGoChecked_eq_some
    (computeLrds db im (computeCoreDistances db nn im cache)) im threshold handler
    db.employees.length hmask hN2 hL2 hent2
    (List.range (computeLrds db im (computeCoreDistances db nn im cache)).lrds.length)
    (fun i hi => by
      have hm := List.mem_range.mp hi
      omega)
  rw [lofFindOutliersChecked, h1]
  simp only [Option.bind_eq_bind, Option.some_bind]
  rw [h2]
  simp only [Option.some_bind]
  rw [h3]
  rfl

/-- A two-record database (salaries 10 and 20). -/
def dbTwo : Database :=
  { employers := ["A"], jobTitles := ["T"], years := [2020],
    employees :=
      [{ id := 0, employer := 0, jobTitle := 0, year := 0, salary := 10 },
       { id := 1, employer := 0, jobTitle := 0, year := 0, salary := 20 }] }

/-- Witness for C7: both records of `dbTwo` included, one-slot buffers. -/
theorem pipeline_no_panic_witness :
    lofFindOutliersChecked dbTwo [[1], [0]] (3 / 2) (newThreadCache dbTwo 1)
        ⟨[true, true], 2⟩ (fun _ _ => true)
      = some (lofFindOutliers dbTwo [[1], [0]] (3 / 2) (newThreadCache dbTwo 1)
          ⟨[true, true], 2⟩ (fun _ _ => true)) :=
  pipeline_no_panic dbTwo [[1], [0]] (3 / 2) (newThreadCache dbTwo 1)
    ⟨[true, true], 2⟩ (fun _ _ => true) (by decide) (by decide) (by decide)
    ⟨by decide, by decide, by decide⟩ ⟨by decide, by decide, by decide, by decide⟩

/-!  ## The superset scan and its worker pool

main.go fixes the baseline prefix sizes, the neighbour count `K = 20` and
the outlier threshold 1.5, enumerates every non-baseline leaf and hands each
to some worker of a fixed pool over a shared queue.  Each worker owns one
`InclusionMask` and one `LofCache` for its whole life and reuses them for
every context it receives; which worker receives which context depends on
scheduling.  A pool run is modelled by an assignment of the dispatched
contexts to workers: each worker processes its assigned contexts in
dispatch order (the queue preserves order; interleaving between workers
does not influence any worker's own computation, since workers share no
mutable state), and a context "matches" when the designated target record
is among the outliers its visitor collects. -/

def origCtxEmployersCount : Nat := 6

def origCtxJobTitlesCount : Nat := 5

def origCtxYearsCount : Nat := 5

def mainK : Nat := 20

def mainThreshold : ℚ := 3 / 2

/-- The baseline context main.go builds: the first `OrigCtx…Count` values
of each dimension included, all others excluded. -/
def mainBaselineContext (db : Database) : Context :=
  baselineContext origCtxEmployersCount origCtxJobTitlesCount origCtxYearsCount
    (db.employers.length - origCtxEmployersCount)
    (db.jobTitles.length - origCtxJobTitlesCount)
    (db.years.length - origCtxYearsCount)

/-- The dispatched work of the scan: every enumerated leaf except the first
(the baseline, skipped via the `originalContext` flag). -/
def scanDispatched (db : Database) : List Context :=
  (enumLeaves origCtxEmployersCount origCtxJobTitlesCount origCtxYearsCount
    (db.employers.length - origCtxEmployersCount)
    (db.jobTitles.length - origCtxJobTitlesCount)
    (db.years.length - origCtxYearsCount)).tail

/-- Step 1 of main: score the baseline with a fresh mask and cache; the
handler records the first outlier and stops.  The designated target is that
record's index (`None` would be a fatal "no outliers" abort). -/
def baselineTarget (db : Database) (nn : List (List Nat)) : Option Nat :=
  ((findOutliersWrap db nn mainThreshold (newThreadCache db mainK)
      (newInclusionMask db) (mainBaselineContext db)
      (fun _ _ => false)).2.2.head?).map Prod.fst

/-- One unit of worker work: fill the worker's own mask from the context,
gate, score with the worker's own cache (the handler collects every outlier
and keeps going), and flag whether the target record was reported. -/
def workerStep (db : Database) (nn : List (List Nat)) (target : Nat)
    (st : InclusionMask × LofCache) (ctx : Context) :
    (InclusionMask × LofCache) × Bool :=
  let r := findOutliersWrap db nn mainThreshold st.2 st.1 ctx (fun _ _ => true)
  ((r.1, r.2.1), (r.2.2.map Prod.fst).contains target)

/-- A worker's loop from a given state: process the assigned contexts in
dispatch order, threading the worker's mask and cache; yields each
context's match flag. -/
def workerGo (db : Database) (nn : List (List Nat)) (target : Nat) :
    InclusionMask × LofCache → List Context → List Bool
  | _, [] => []
  | st, ctx :: rest =>
    (workerStep db nn target st ctx).2 ::
      workerGo db nn target (workerStep db nn target st ctx).1 rest

/-- A worker's whole life: fresh mask and cache, then its assigned contexts
in dispatch order. -/
def workerRun (db : Database) (nn : List (List Nat)) (target : Nat)
    (ctxs : List Context) : List Bool :=
  workerGo db nn target (newInclusionMask db, newThreadCache db mainK) ctxs

/-- The contexts worker `w` receives under an assignment (one worker id per
dispatched context; per-worker dispatch order is preserved). -/
def assignedTo (ctxs : List Context) (assignment : List Nat) (w : Nat) :
    List Context :=
  ((ctxs.zip assignment).filter (fun p => p.2 = w)).map Prod.fst

/-- All matching contexts of a pool run (the reporter's output, as a list;
context order may vary between runs, membership is what the claim is
about). -/
def poolMatches (db : Database) (nn : List (List Nat)) (target : Nat)
    (ctxs : List Context) (assignment : List Nat) (workers : Nat) :
    List Context :=
  (List.range workers).flatMap (fun w =>
    ((assignedTo ctxs assignment w).zip
        (workerRun db nn target (assignedTo ctxs assignment w))).filterMap
      (fun p => if p.2 then some p.1 else none))

theorem computeCoreDistances_nb_getD (db : Database) (nn : List (List Nat))
    (im : InclusionMask) (cache : LofCache) (i : Nat)
    (hi : i < cache.coreDistance.length) :
    (computeCoreDistances db nn im cache).neighborhoods.getD i []
      = (coreAt db nn im cache i).1 := by
  show ((List.range cache.coreDistance.length).map
    (fun i => (coreAt db nn im cache i).1)).getD i [] = _
  exact getD_map_range _ [] hi

theorem computeCoreDistances_core_getD (db : Database) (nn : List (List Nat))
    (im : InclusionMask) (cache : LofCache) (i : Nat)
    (hi : i < cache.coreDistance.length) :
    (computeCoreDistances db nn im cache).coreDistance.getD i 0
      = (coreAt db nn im cache i).2 := by
  show ((List.range cache.coreDistance.length).map
    (fun i => (coreAt db nn im cache i).2)).getD i 0 = _
  exact getD_map_range _ 0 hi

theorem computeLrds_lrds_getD (db : Database) (im : InclusionMask)
    (cache : LofCache) (i : Nat) (hi : i < cache.lrds.length) :
    (computeLrds db im cache).lrds.getD i 0 = lrdAt db im cache i := by
  show ((List.range cache.lrds.length).map (lrdAt db im cache)).getD i 0 = _
  exact getD_map_range _ 0 hi

/-- An index whose mask bit reads `true` is below the mask length. -/
theorem lt_length_of_isIncluded {im : InclusionMask} {i : Nat}
    (hinc : im.isIncluded i = true) : i < im.mask.length := by
  by_contra h
  push_neg at h
  rw [InclusionMask.isIncluded, List.getD_eq_default _ _ h] at hinc
  exact Bool.false_ne_true hinc

/-- The indices included besides an included `i`, as a list: the mask's
included indices with `i` erased. -/
theorem includedOthers_eq_erase (im : InclusionMask) (i : Nat) :
    (((List.range im.mask.length).filter (fun t => !(t = i : Bool))).filter
        (fun j => im.isIncluded j))
      = im.includedIndices.erase i := by
  have hnd : im.includedIndices.Nodup := (List.nodup_range _).filter _
  have hpred : (fun (x : Nat) => x != i) = (fun t => !(t = i : Bool)) := by
    funext t
    by_cases h : t = i <;> simp [bne, h]
  rw [hnd.erase_eq_filter i, hpred, InclusionMask.includedIndices, List.filter_comm]

/-- The number of in-mask records other than an included `i` is the mask's
popcount minus one. -/
theorem includedOthers_eq (im : InclusionMask) (i : Nat)
    (hinc : im.isIncluded i = true) :
    includedOthers im i im.mask.length + 1 = im.popcount := by
  have hmem : i ∈ im.includedIndices := by
    simp only [InclusionMask.includedIndices, List.mem_filter, List.mem_range]
    exact ⟨lt_length_of_isIncluded hinc, hinc⟩
  have hpos : 0 < im.includedIndices.length := List.length_pos_of_mem hmem
  rw [popcount_eq_length_includedIndices, includedOthers,
    includedOthers_eq_erase im i, List.length_erase_of_mem hmem]
  omega

/-- A cache whose arrays are sized to the record count and whose
neighbourhood buffers all have length exactly `k` — the state of a fresh
`NewThreadCache` and, as shown below, of a worker's cache after any run of
contexts whose populations exceed `k`. -/
def CacheFull (db : Database) (k : Nat) (cache : LofCache) : Prop :=
  cache.neighborhoods.length = db.employees.length ∧
  cache.coreDistance.length = db.employees.length ∧
  cache.lrds.length = db.employees.length ∧
  ∀ i, i < db.employees.length → (cache.neighborhoods.getD i []).length = k

theorem newThreadCache_cacheFull (db : Database) (k : Nat) :
    CacheFull db k (newThreadCache db k) := by
  refine ⟨by simp [newThreadCache], by simp [newThreadCache], by simp [newThreadCache], ?_⟩
  intro i hi
  show ((List.replicate db.employees.length (List.replicate k 0)).getD i []).length = k
  rw [List.getD_eq_getElem _ [] (by simpa using hi), List.getElem_replicate]
  exact List.length_replicate k 0

/-- The population selected by a context (what a fresh fill counts). -/
def fillPop (db : Database) (ctx : Context) : Nat :=
  ((db.filter ctx).filter id).length

theorem fill_popcount (im : InclusionMask) (inclusion : List Bool) :
    (im.fill inclusion).popcount = (inclusion.filter id).length := rfl

theorem fill_mask_length (im : InclusionMask) (inclusion : List Bool) :
    (im.fill inclusion).mask.length = inclusion.length := rfl

/-- Pass 1 reads, for an included record, only the neighbour index, the mask
and the *length* of the record's neighbourhood buffer; so two caches whose
buffers have equal lengths produce identical included rows. -/
theorem coreAt_agree (db : Database) (nn : List (List Nat)) (im : InclusionMask)
    (c c' : LofCache) (i : Nat)
    (hlen : (c.neighborhoods.getD i []).length = (c'.neighborhoods.getD i []).length)
    (hinc : im.isIncluded i = true) :
    coreAt db nn im c i = coreAt db nn im c' i := by
  rw [coreAt, coreAt, if_pos hinc, if_pos hinc, hlen]

/-- Entries of an included record's pass-1 neighbourhood are included
records below the record count. -/
theorem coreAt_mem (db : Database) (nn : List (List Nat)) (im : InclusionMask)
    (c : LofCache) (i : Nat) (hinc : im.isIncluded i = true)
    (hrow : ∀ j ∈ nn.getD i [], j < db.employees.length) :
    ∀ j ∈ (coreAt db nn im c i).1, j < db.employees.length ∧ im.isIncluded j = true := by
  intro j hj
  rw [coreAt, if_pos hinc] at hj
  have hsub : kNearest (nn.getD i []) im ((c.neighborhoods.getD i []).length)
      ⊆ (nn.getD i []).filter (fun j => im.isIncluded j) :=
    (List.take_sublist _ _).subset
  have hjf := hsub hj
  exact ⟨hrow j ((List.filter_sublist _).subset hjf), List.of_mem_filter hjf⟩

/-- The length of an included record's pass-1 neighbourhood: the buffer
length capped by the in-mask population minus one. -/
theorem coreAt_length (db : Database) (nn : List (List Nat)) (im : InclusionMask)
    (c : LofCache) (i : Nat) (hinc : im.isIncluded i = true)
    (hmask : im.mask.length = db.employees.length)
    (hrow : (nn.getD i []).Perm
      ((List.range db.employees.length).filter (fun t => !(t = i : Bool)))) :
    ((coreAt db nn im c i).1).length
      = min ((c.neighborhoods.getD i []).length) (im.popcount - 1) := by
  rw [coreAt, if_pos hinc]
  show (kNearest _ _ _).length = _
  rw [kNearest, List.length_take]
  have hfl : ((nn.getD i []).filter (fun j => im.isIncluded j)).length
      = includedOthers im i db.employees.length :=
    (hrow.filter _).length_eq
  rw [hfl]
  have := includedOthers_eq im i hinc
  rw [hmask] at this
  omega

/-- Pass 2 computes, for an included record, a value depending only on its
neighbourhood row and the core distances of the (included) records in it. -/
theorem lrdAt_agree (db : Database) (im : InclusionMask) (c c' : LofCache) (i : Nat)
    (hnb : c.neighborhoods.getD i [] = c'.neighborhoods.getD i [])
    (hcore : ∀ j ∈ c.neighborhoods.getD i [],
      c.coreDistance.getD j 0 = c'.coreDistance.getD j 0)
    (hinc : im.isIncluded i = true) :
    lrdAt db im c i = lrdAt db im c' i := by
  rw [lrdAt, lrdAt, if_pos hinc, if_pos hinc, ← hnb]
  have hsum : reachSum db c i = reachSum db c' i := by
    rw [reachSum, reachSum, ← hnb]
    congr 1
    refine List.map_congr_left (fun j hj => ?_)
    rw [hcore j hj]
  rw [hsum]

/-- The third pass's score for an included record depends only on its
neighbourhood row and the densities of the records in it (and its own). -/
theorem lofScore_agree (c c' : LofCache) (i : Nat)
    (hnb : c.neighborhoods.getD i [] = c'.neighborhoods.getD i [])
    (hlrd : ∀ j ∈ c.neighborhoods.getD i [], c.lrds.getD j 0 = c'.lrds.getD j 0)
    (hlrdi : c.lrds.getD i 0 = c'.lrds.getD i 0) :
    lofScore c i = lofScore c' i := by
  rw [lofScore, lofScore, ← hnb, hlrdi]
  congr 2
  refine List.map_congr_left (fun j hj => ?_)
  rw [hlrd j hj]

theorem lofsGo_agree (c c' : LofCache) (im : InclusionMask) (threshold : ℚ)
    (handler : Nat → ℚ → Bool) (l : List Nat)
    (hsc : ∀ i ∈ l, im.isIncluded i = true → lofScore c i = lofScore c' i) :
    lofsGo c im threshold handler l = lofsGo c' im threshold handler l := by
  induction l with
  | nil => rfl
  | cons i rest ih =>
    have hrest := fun x hx => hsc x (List.mem_cons_of_mem _ hx)
    by_cases hinc : im.isIncluded i = true
    · have hs := hsc i (List.mem_cons_self _ _) hinc
      simp only [lofsGo, hinc, hs, ih hrest]
    · simp only [Bool.not_eq_true] at hinc
      rw [lofsGo, lofsGo, ih hrest, hinc]
      simp

/-- The visitor sequence of `Lof.FindOutliers` depends on the cache only
through the lengths of its neighbourhood buffers: with equal buffer lengths,
two caches (whatever stale contents their buffers, core distances or
densities hold) produce identical visit sequences. -/
theorem lofFindOutliers_visits_agree (db : Database) (nn : List (List Nat))
    (threshold : ℚ) (c c' : LofCache) (im : InclusionMask)
    (handler : Nat → ℚ → Bool)
    (hnn : NnReady db nn)
    (hC : c.coreDistance.length = db.employees.length)
    (hC' : c'.coreDistance.length = db.employees.length)
    (hL : c.lrds.length = db.employees.length)
    (hL' : c'.lrds.length = db.employees.length)
    (hlen : ∀ i, i < db.employees.length →
      (c.neighborhoods.getD i []).length = (c'.neighborhoods.getD i []).length) :
    (lofFindOutliers db nn threshold c im handler).2
      = (lofFindOutliers db nn threshold c' im handler).2 := by
  obtain ⟨hnnlen, hrows, hsorted⟩ := hnn
  have hrowmem : ∀ i, i < db.employees.length →
      ∀ j ∈ nn.getD i [], j < db.employees.length := by
    intro i hi j hj
    have hm := (hrows i hi).mem_iff.mp hj
    exact List.mem_range.mp (List.mem_filter.mp hm).1
  have hnb1 : ∀ i, i < db.employees.length → im.isIncluded i = true →
      (computeCoreDistances db nn im c).neighborhoods.getD i []
        = (computeCoreDistances db nn im c').neighborhoods.getD i [] := by
    intro i hi hinc
    rw [computeCoreDistances_nb_getD db nn im c i (by omega),
      computeCoreDistances_nb_getD db nn im c' i (by omega),
      coreAt_agree db nn im c c' i (hlen i hi) hinc]
  have hcore1 : ∀ i, i < db.employees.length → im.isIncluded i = true →
      (computeCoreDistances db nn im c).coreDistance.getD i 0
        = (computeCoreDistances db nn im c').coreDistance.getD i 0 := by
    intro i hi hinc
    rw [computeCoreDistances_core_getD db nn im c i (by omega),
      computeCoreDistances_core_getD db nn im c' i (by omega),
      coreAt_agree db nn im c c' i (hlen i hi) hinc]
  have hmem1 : ∀ i, i < db.employees.length → im.isIncluded i = true →
      ∀ j ∈ (computeCoreDistances db nn im c).neighborhoods.getD i [],
        j < db.employees.length ∧ im.isIncluded j = true := by
    intro i hi hinc j hj
    rw [computeCoreDistances_nb_getD db nn im c i (by omega)] at hj
    exact coreAt_mem db nn im c i hinc (hrowmem i hi) j hj
  have hlrd2 : ∀ i, i < db.employees.length → im.isIncluded i = true →
      (computeLrds db im (computeCoreDistances db nn im c)).lrds.getD i 0
        = (computeLrds db im (computeCoreDistances db nn im c')).lrds.getD i 0 := by
    intro i hi hinc
    rw [computeLrds_lrds_getD db im _ i (by show i < c.lrds.length; omega),
      computeLrds_lrds_getD db im _ i (by show i < c'.lrds.length; omega)]
    refine lrdAt_agree db im _ _ i (hnb1 i hi hinc) (fun j hj => ?_) hinc
    have hji := hmem1 i hi hinc j hj
    exact hcore1 j hji.1 hji.2
  have hscores : ∀ i ∈ List.range db.employees.length, im.isIncluded i = true →
      lofScore (computeLrds db im (computeCoreDistances db nn im c)) i
        = lofScore (computeLrds db im (computeCoreDistances db nn im c')) i := by
    intro i hi hinc
    have hin := List.mem_range.mp hi
    refine lofScore_agree _ _ i ?_ (fun j hj => ?_) (hlrd2 i hin hinc)
    · show (computeCoreDistances db nn im c).neighborhoods.getD i [] = _
      exact hnb1 i hin hinc
    · have hj2 : j ∈ (computeCoreDistances db nn im c).neighborhoods.getD i [] := hj
      have hji := hmem1 i hin hinc j hj2
      exact hlrd2 j hji.1 hji.2
  show lofsGo (computeLrds db im (computeCoreDistances db nn im c)) im threshold handler
      (List.range (computeLrds db im (computeCoreDistances db nn im c)).lrds.length)
    = lofsGo (computeLrds db im (computeCoreDistances db nn im c')) im threshold handler
      (List.range (computeLrds db im (computeCoreDistances db nn im c')).lrds.length)
  have hlen2 : (computeLrds db im (computeCoreDistances db nn im c)).lrds.length
      = db.employees.length := by
    show ((List.range (computeCoreDistances db nn im c).lrds.length).map _).length = _
    simp only [List.length_map, List.length_range]
    exact hL
  have hlen2' : (computeLrds db im (computeCoreDistances db nn im c')).lrds.length
      = db.employees.length := by
    show ((List.range (computeCoreDistances db nn im c').lrds.length).map _).length = _
    simp only [List.length_map, List.length_range]
    exact hL'
  rw [hlen2, hlen2']
  exact lofsGo_agree _ _ im threshold handler _ hscores

theorem lofsGo_count_irrel (c : LofCache) (m : List Bool) (a b : Nat)
    (threshold : ℚ) (handler : Nat → ℚ → Bool) (l : List Nat) :
    lofsGo c ⟨m, a⟩ threshold handler l = lofsGo c ⟨m, b⟩ threshold handler l := by
  induction l with
  | nil => rfl
  | cons i rest ih =>
    rw [lofsGo, lofsGo, ih]
    rfl

/-- No part of the scoring pipeline reads the mask's `Count` field. -/
theorem lofFindOutliers_count_irrel (db : Database) (nn : List (List Nat))
    (threshold : ℚ) (c : LofCache) (m : List Bool) (a b : Nat)
    (handler : Nat → ℚ → Bool) :
    lofFindOutliers db nn threshold c ⟨m, a⟩ handler
      = lofFindOutliers db nn threshold c ⟨m, b⟩ handler := by
  have hc2 : computeLrds db ⟨m, a⟩ (computeCoreDistances db nn ⟨m, a⟩ c)
      = computeLrds db ⟨m, b⟩ (computeCoreDistances db nn ⟨m, b⟩ c) := rfl
  show (computeLrds db ⟨m, a⟩ (computeCoreDistances db nn ⟨m, a⟩ c),
      lofsGo (computeLrds db ⟨m, a⟩ (computeCoreDistances db nn ⟨m, a⟩ c))
        ⟨m, a⟩ threshold handler
        (List.range (computeLrds db ⟨m, a⟩
          (computeCoreDistances db nn ⟨m, a⟩ c)).lrds.length)) = _
  rw [hc2, lofsGo_count_irrel _ m a b]
  rfl

theorem database_filter_length (db : Database) (ctx : Context) :
    (db.filter ctx).length = db.employees.length := by
  simp [Database.filter]

/-- Populations above `mainK` preserve the full-buffer cache state: every
included record finds at least `mainK` in-mask neighbours, so its buffer is
re-sliced back to its full length. -/
theorem lofFindOutliers_preserves_cacheFull (db : Database) (nn : List (List Nat))
    (threshold : ℚ) (c : LofCache) (im : InclusionMask) (handler : Nat → ℚ → Bool)
    (hnn : NnReady db nn)
    (hmask : im.mask.length = db.employees.length)
    (hfull : CacheFull db mainK c)
    (hpop : mainK + 1 ≤ im.popcount) :
    CacheFull db mainK (lofFindOutliers db nn threshold c im handler).1 := by
  obtain ⟨hN, hC, hL, hk⟩ := hfull
  obtain ⟨hnnlen, hrows, hsorted⟩ := hnn
  refine ⟨?_, ?_, ?_, ?_⟩
  · show ((List.range c.coreDistance.length).map _).length = _
    simp only [List.length_map, List.length_range]
    exact hC
  · show ((List.range c.coreDistance.length).map _).length = _
    simp only [List.length_map, List.length_range]
    exact hC
  · show ((List.range (computeCoreDistances db nn im c).lrds.length).map _).length = _
    simp only [List.length_map, List.length_range]
    exact hL
  · intro i hi
    show ((computeCoreDistances db nn im c).neighborhoods.getD i []).length = mainK
    rw [computeCoreDistances_nb_getD db nn im c i (by omega)]
    by_cases hinc : im.isIncluded i = true
    · rw [coreAt_length db nn im c i hinc hmask (hrows i hi), hk i hi]
      omega
    · rw [coreAt, if_neg (by simp [hinc])]
      exact hk i hi

/-- The canonical, state-free match verdict of a context: what a worker in
its initial state computes for it. -/
def ctxMatch (db : Database) (nn : List (List Nat)) (target : Nat)
    (ctx : Context) : Bool :=
  (workerStep db nn target (newInclusionMask db, newThreadCache db mainK) ctx).2

/-- On a context whose population exceeds `mainK`, a worker in any reachable
state computes the canonical verdict and keeps its cache full. -/
theorem workerStep_eq (db : Database) (nn : List (List Nat)) (target : Nat)
    (st : InclusionMask × LofCache) (ctx : Context)
    (hnn : NnReady db nn)
    (hfull : CacheFull db mainK st.2)
    (hpop : mainK + 1 ≤ fillPop db ctx) :
    (workerStep db nn target st ctx).2 = ctxMatch db nn target ctx ∧
    CacheFull db mainK (workerStep db nn target st ctx).1.2 := by
  have hcnt := (fill_spec st.1 (db.filter ctx)).2
  have hcnt' := (fill_spec (newInclusionMask db) (db.filter ctx)).2
  have hgate : ¬ ((st.1.fill (db.filter ctx)).count < 20) := by
    unfold fillPop mainK at *
    omega
  have hgate' : ¬ (((newInclusionMask db).fill (db.filter ctx)).count < 20) := by
    have hzero : (newInclusionMask db).count = 0 := rfl
    unfold fillPop mainK at *
    omega
  have hmask2 : (st.1.fill (db.filter ctx)).mask.length = db.employees.length := by
    rw [fill_mask_length, database_filter_length]
  have hpop2 : mainK + 1 ≤ (st.1.fill (db.filter ctx)).popcount := by
    rw [fill_popcount]
    exact hpop
  have hfresh : CacheFull db mainK (newThreadCache db mainK) :=
    newThreadCache_cacheFull db mainK
  constructor
  · show ((findOutliersWrap db nn mainThreshold st.2 st.1 ctx
        (fun _ _ => true)).2.2.map Prod.fst).contains target = _
    rw [findOutliersWrap, if_neg hgate]
    show ((lofFindOutliers db nn mainThreshold st.2 (st.1.fill (db.filter ctx))
        (fun _ _ => true)).2.map Prod.fst).contains target = _
    rw [ctxMatch, workerStep]
    show _ = ((findOutliersWrap db nn mainThreshold (newThreadCache db mainK)
        (newInclusionMask db) ctx (fun _ _ => true)).2.2.map Prod.fst).contains target
    rw [findOutliersWrap, if_neg hgate']
    show _ = ((lofFindOutliers db nn mainThreshold (newThreadCache db mainK)
        ((newInclusionMask db).fill (db.filter ctx))
        (fun _ _ => true)).2.map Prod.fst).contains target
    have hagree := lofFindOutliers_visits_agree db nn mainThreshold st.2
      (newThreadCache db mainK) (st.1.fill (db.filter ctx)) (fun _ _ => true)
      hnn hfull.2.1 hfresh.2.1 hfull.2.2.1 hfresh.2.2.1
      (fun i hi => by rw [hfull.2.2.2 i hi, hfresh.2.2.2 i hi])
    have hirrel : lofFindOutliers db nn mainThreshold (newThreadCache db mainK)
        (st.1.fill (db.filter ctx)) (fun _ _ => true)
      = lofFindOutliers db nn mainThreshold (newThreadCache db mainK)
        ((newInclusionMask db).fill (db.filter ctx)) (fun _ _ => true) :=
      lofFindOutliers_count_irrel db nn mainThreshold (newThreadCache db mainK)
        (db.filter ctx) _ _ (fun _ _ => true)
    rw [hagree, hirrel]
  · show CacheFull db mainK (findOutliersWrap db nn mainThreshold st.2 st.1 ctx
        (fun _ _ => true)).2.1
    rw [findOutliersWrap, if_neg hgate]
    show CacheFull db mainK (lofFindOutliers db nn mainThreshold st.2
        (st.1.fill (db.filter ctx)) (fun _ _ => true)).1
    exact lofFindOutliers_preserves_cacheFull db nn mainThreshold st.2 _ _
      hnn hmask2 hfull hpop2

/-- A worker starting from any full-cache state computes the canonical
verdict for every assigned context with population above `mainK`. -/
theorem workerGo_eq_map (db : Database) (nn : List (List Nat)) (target : Nat)
    (ctxs : List Context) (st : InclusionMask × LofCache)
    (hnn : NnReady db nn)
    (hfull : CacheFull db mainK st.2)
    (hpops : ∀ ctx ∈ ctxs, mainK + 1 ≤ fillPop db ctx) :
    workerGo db nn target st ctxs = ctxs.map (ctxMatch db nn target) := by
  induction ctxs generalizing st with
  | nil => rfl
  | cons ctx rest ih =>
    have hstep := workerStep_eq db nn target st ctx hnn hfull
      (hpops ctx (List.mem_cons_self _ _))
    rw [workerGo, hstep.1,
      ih (workerStep db nn target st ctx).1 hstep.2
        (fun x hx => hpops x (List.mem_cons_of_mem _ hx)), List.map_cons]

theorem flatMap_congr_mem {α β : Type} {l : List α} {f g : α → List β}
    (h : ∀ a ∈ l, f a = g a) : l.flatMap f = l.flatMap g := by
  induction l with
  | nil => rfl
  | cons a rest ih =>
    rw [List.flatMap_cons, List.flatMap_cons, h a (List.mem_cons_self _ _),
      ih (fun x hx => h x (List.mem_cons_of_mem _ hx))]

theorem flatMap_ite_cons_perm {α : Type} (f : Nat → List α) (q : α) (v : Nat)
    (l : List Nat) (hnd : l.Nodup) (hv : v ∈ l) :
    (l.flatMap (fun w => if v = w then q :: f w else f w)).Perm
      (q :: l.flatMap f) := by
  induction l with
  | nil => simp at hv
  | cons a rest ih =>
    rw [List.flatMap_cons, List.flatMap_cons]
    by_cases hva : v = a
    · rw [if_pos hva]
      have hnotin : v ∉ rest := by
        rw [hva]
        exact (List.nodup_cons.mp hnd).1
      have hrest : rest.flatMap (fun w => if v = w then q :: f w else f w)
          = rest.flatMap f :=
        flatMap_congr_mem (fun w hw => if_neg (fun hvw => hnotin (by rw [hvw]; exact hw)))
      rw [hrest]
      exact (List.cons_append q (f a) (rest.flatMap f)) ▸ List.Perm.refl _
    · rw [if_neg hva]
      have hvrest : v ∈ rest := by
        rcases List.mem_cons.mp hv with h | h
        · exact absurd h hva
        · exact h
      exact (List.Perm.append_left (f a)
        (ih (List.nodup_cons.mp hnd).2 hvrest)).trans List.perm_middle

/-- Grouping a keyed list by its keys is a permutation of the list. -/
theorem flatMap_filter_key_perm {α : Type} (z : List (α × Nat)) (workers : Nat)
    (h : ∀ q ∈ z, q.2 < workers) :
    ((List.range workers).flatMap
        (fun w => z.filter (fun q => q.2 = w))).Perm z := by
  induction z with
  | nil => simp
  | cons q rest ih =>
    have hq : q.2 ∈ List.range workers :=
      List.mem_range.mpr (h q (List.mem_cons_self _ _))
    have hrest := ih (fun x hx => h x (List.mem_cons_of_mem _ hx))
    have hsplit : (List.range workers).flatMap
        (fun w => (q :: rest).filter (fun p => p.2 = w))
      = (List.range workers).flatMap
        (fun w => if q.2 = w then q :: rest.filter (fun p => p.2 = w)
          else rest.filter (fun p => p.2 = w)) := by
      refine flatMap_congr_mem (fun w _ => ?_)
      rw [List.filter_cons]
      by_cases hqw : q.2 = w
      · rw [if_pos (by simp [hqw]), if_pos hqw]
      · rw [if_neg (by simp [hqw]), if_neg hqw]
    rw [hsplit]
    exact (flatMap_ite_cons_perm _ q q.2 _ (List.nodup_range _) hq).trans
      (hrest.cons q)

theorem zip_map_filterMap (ctxs : List Context) (f : Context → Bool) :
    ((ctxs.zip (ctxs.map f)).filterMap (fun p => if p.2 then some p.1 else none))
      = ctxs.filter f := by
  induction ctxs with
  | nil => rfl
  | cons c rest ih =>
    simp only [List.map_cons, List.zip_cons_cons, List.filterMap_cons, List.filter_cons]
    cases hfc : f c
    · simpa [hfc] using ih
    · simpa [hfc] using ih

theorem assignedTo_subset (ctxs : List Context) (a : List Nat) (w : Nat) :
    ∀ x ∈ assignedTo ctxs a w, x ∈ ctxs := by
  intro x hx
  rw [assignedTo] at hx
  obtain ⟨p, hp, rfl⟩ := List.mem_map.mp hx
  obtain ⟨p1, p2⟩ := p
  exact (List.of_mem_zip ((List.filter_sublist _).subset hp)).1

/-- Any pool run over contexts whose populations all exceed `mainK` reports,
up to order, exactly the contexts whose canonical verdict is a match. -/
theorem poolMatches_perm (db : Database) (nn : List (List Nat)) (target : Nat)
    (ctxs : List Context) (a : List Nat) (workers : Nat)
    (hnn : NnReady db nn)
    (hpops : ∀ ctx ∈ ctxs, mainK + 1 ≤ fillPop db ctx)
    (hlen : ctxs.length ≤ a.length)
    (hw : ∀ w ∈ a, w < workers) :
    (poolMatches db nn target ctxs a workers).Perm
      (ctxs.filter (ctxMatch db nn target)) := by
  have hworker : ∀ w ∈ List.range workers,
      ((assignedTo ctxs a w).zip
          (workerRun db nn target (assignedTo ctxs a w))).filterMap
          (fun p => if p.2 then some p.1 else none)
        = ((((ctxs.zip a).filter (fun p => ctxMatch db nn target p.1)).filter
            (fun p => p.2 = w)).map Prod.fst) := by
    intro w _
    have hrun : workerRun db nn target (assignedTo ctxs a w)
        = (assignedTo ctxs a w).map (ctxMatch db nn target) :=
      workerGo_eq_map db nn target (assignedTo ctxs a w) _ hnn
        (newThreadCache_cacheFull db mainK)
        (fun x hx => hpops x (assignedTo_subset ctxs a w x hx))
    rw [hrun, zip_map_filterMap, assignedTo, List.filter_map,
      ← List.filter_comm]
    rfl
  rw [poolMatches, flatMap_congr_mem hworker, ← List.map_flatMap]
  have hperm := flatMap_filter_key_perm
    ((ctxs.zip a).filter (fun p => ctxMatch db nn target p.1)) workers
    (fun q hq => by
      obtain ⟨q1, q2⟩ := q
      exact hw q2 (List.of_mem_zip ((List.filter_sublist _).subset hq)).2)
  have hfin : (((ctxs.zip a).filter (fun p => ctxMatch db nn target p.1)).map
        Prod.fst)
      = ctxs.filter (ctxMatch db nn target) := by
    have h1 : ctxs.filter (ctxMatch db nn target)
        = ((ctxs.zip a).map Prod.fst).filter (ctxMatch db nn target) := by
      rw [List.map_fst_zip ctxs a hlen]
    rw [h1, List.filter_map]
    rfl
  exact hfin ▸ (hperm.map Prod.fst)

/-!  ## C10, part B: populations of exactly `K` produce no outliers

With the in-mask population exactly `K = 20` and a fresh (full-buffer)
cache, every included record's neighbourhood is all 19 other included
records, every reachability distance is floored to the neighbour's core
distance, and the resulting scores all fall below the threshold `1.5`. -/

theorem getLastD_mem {α : Type} (l : List α) (d : α) (h : l ≠ []) :
    l.getLastD d ∈ l := by
  rw [List.getLastD_eq_getLast?, List.getLast?_eq_getLast l h]
  simp [List.getLast_mem h]

theorem le_getLastD_of_pairwise (g : Nat → Nat) :
    ∀ (l : List Nat) (d : Nat), l.Pairwise (fun a b => g a ≤ g b) →
      ∀ x ∈ l, g x ≤ g (l.getLastD d)
  | [], _, _, x, hx => absurd hx (List.not_mem_nil x)
  | a :: t, d, hp, x, hx => by
    rw [List.getLastD_cons]
    rcases List.mem_cons.mp hx with rfl | hxt
    · cases ht : t with
      | nil => simp [ht]
      | cons b u =>
        subst ht
        exact (List.pairwise_cons.mp hp).1 _ (getLastD_mem (b :: u) x (by simp))
    · exact le_getLastD_of_pairwise g t a (List.pairwise_cons.mp hp).2 x hxt

theorem exists_argmax (g : Nat → Nat) :
    ∀ (l : List Nat), l ≠ [] → ∃ p ∈ l, ∀ x ∈ l, g x ≤ g p
  | [], h => absurd rfl h
  | [a], _ => ⟨a, List.mem_singleton_self a, fun x hx => by
      rw [List.mem_singleton.mp hx]⟩
  | a :: b :: u, _ => by
    obtain ⟨p, hp, hmax⟩ := exists_argmax g (b :: u) (by simp)
    by_cases hc : g a ≤ g p
    · refine ⟨p, List.mem_cons_of_mem a hp, fun x hx => ?_⟩
      rcases List.mem_cons.mp hx with rfl | hxt
      · exact hc
      · exact hmax x hxt
    · refine ⟨a, List.mem_cons_self a _, fun x hx => ?_⟩
      rcases List.mem_cons.mp hx with rfl | hxt
      · exact Nat.le_refl _
      · exact Nat.le_trans (hmax x hxt) (Nat.le_of_not_le hc)

theorem exists_argmin (g : Nat → Nat) :
    ∀ (l : List Nat), l ≠ [] → ∃ p ∈ l, ∀ x ∈ l, g p ≤ g x
  | [], h => absurd rfl h
  | [a], _ => ⟨a, List.mem_singleton_self a, fun x hx => by
      rw [List.mem_singleton.mp hx]⟩
  | a :: b :: u, _ => by
    obtain ⟨p, hp, hmin⟩ := exists_argmin g (b :: u) (by simp)
    by_cases hc : g p ≤ g a
    · refine ⟨p, List.mem_cons_of_mem a hp, fun x hx => ?_⟩
      rcases List.mem_cons.mp hx with rfl | hxt
      · exact hc
      · exact hmin x hxt
    · refine ⟨a, List.mem_cons_self a _, fun x hx => ?_⟩
      rcases List.mem_cons.mp hx with rfl | hxt
      · exact Nat.le_refl _
      · exact Nat.le_trans (Nat.le_of_not_le hc) (hmin x hxt)

theorem sum_map_const_nat : ∀ (l : List Nat) (c : Nat),
    (l.map (fun _ => c)).sum = l.length * c
  | [], _ => by simp
  | a :: t, c => by
    simp only [List.map_cons, List.sum_cons, sum_map_const_nat t c, List.length_cons]
    ring

theorem sum_map_double (f : Nat → Nat) : ∀ (l : List Nat),
    (l.map (fun j => 2 * f j)).sum = 2 * (l.map f).sum
  | [] => by simp
  | a :: t => by
    simp only [List.map_cons, List.sum_cons, sum_map_double f t]
    ring

theorem sum_le_sum_nat (f g : Nat → Nat) : ∀ (l : List Nat),
    (∀ x ∈ l, f x ≤ g x) → (l.map f).sum ≤ (l.map g).sum
  | [], _ => le_refl _
  | a :: t, h => by
    simp only [List.map_cons, List.sum_cons]
    exact Nat.add_le_add (h a (List.mem_cons_self a t))
      (sum_le_sum_nat f g t (fun x hx => h x (List.mem_cons_of_mem a hx)))

theorem sum_le_sum_rat (f g : Nat → ℚ) : ∀ (l : List Nat),
    (∀ x ∈ l, f x ≤ g x) → (l.map f).sum ≤ (l.map g).sum
  | [], _ => le_refl _
  | a :: t, h => by
    simp only [List.map_cons, List.sum_cons]
    exact add_le_add (h a (List.mem_cons_self a t))
      (sum_le_sum_rat f g t (fun x hx => h x (List.mem_cons_of_mem a hx)))

theorem sum_map_const_rat : ∀ (l : List Nat) (c : ℚ),
    (l.map (fun _ => c)).sum = (l.length : ℚ) * c
  | [], _ => by simp
  | a :: t, c => by
    simp only [List.map_cons, List.sum_cons, sum_map_const_rat t c, List.length_cons]
    push_cast
    ring

/-- Arithmetic core of the population-20 score bound.  `L` is the list of
the 20 included records, `cd` their stored core distances and `D` the salary
diameter of the population; the sandwich `D/2 ≤ cd j ≤ D` forces the
LOF-shaped expression (sum over the 19 neighbours of `19 / (their
reachability sum)`, divided by `19` times `i`'s own density) below `3/2`.
A zero diameter makes every density a division by zero; the model's
rational `x / 0 = 0` then gives score `0`. -/
theorem score_bound_arith (L : List Nat) (cd : Nat → Nat) (i : Nat) (D : Nat)
    (hL : L.length = 20) (hiL : i ∈ L)
    (hub : ∀ j ∈ L, cd j ≤ D)
    (hlb : ∀ j ∈ L, D ≤ 2 * cd j) :
    ((L.erase i).map (fun j =>
        (19 : ℚ) / (((L.erase j).map (fun x => (cd x : ℚ))).sum))).sum /
      ((19 : ℚ) * ((19 : ℚ) / (((L.erase i).map (fun x => (cd x : ℚ))).sum))) < 3 / 2 := by
  have hcast : ∀ j : Nat, (((L.erase j).map (fun x => (cd x : ℚ))).sum)
      = ((((L.erase j).map cd).sum : Nat) : ℚ) := by
    intro j
    rw [Nat.cast_list_sum, List.map_map]
    rfl
  have hsplit : ∀ j ∈ L, cd j + ((L.erase j).map cd).sum = (L.map cd).sum := by
    intro j hj
    have h := ((List.perm_cons_erase hj).map cd).sum_eq
    simp only [List.map_cons, List.sum_cons] at h
    omega
  have hlen19 : (L.erase i).length = 19 := by
    rw [List.length_erase_of_mem hiL, hL]
  have hSb : 20 * D ≤ 2 * (L.map cd).sum := by
    have h := sum_le_sum_nat (fun _ => D) (fun j => 2 * cd j) L hlb
    rw [sum_map_const_nat, sum_map_double, hL] at h
    omega
  rcases Nat.eq_zero_or_pos D with hD | hD
  · have hzero : (((L.erase i).map (fun x => (cd x : ℚ))).sum) = 0 := by
      apply List.sum_eq_zero
      intro q hq
      obtain ⟨x, hx, rfl⟩ := List.mem_map.mp hq
      have hx0 : cd x = 0 := by
        have := hub x (List.mem_of_mem_erase hx)
        omega
      rw [hx0]
      exact Nat.cast_zero
    rw [hzero, div_zero, mul_zero, div_zero]
    norm_num
  · have hq3 : 2 * (D : ℚ) < ((L.map cd).sum : ℚ) := by
      have h : 2 * D < (L.map cd).sum := by omega
      exact_mod_cast h
    have hSD : (0 : ℚ) < ((L.map cd).sum : ℚ) - (D : ℚ) := by
      have h : D < (L.map cd).sum := by omega
      have h2 : (D : ℚ) < ((L.map cd).sum : ℚ) := by exact_mod_cast h
      linarith
    have hq1 : ∀ j ∈ L, ((L.map cd).sum : ℚ) - (D : ℚ)
        ≤ (((L.erase j).map cd).sum : ℚ) := by
      intro j hj
      have h3 : (L.map cd).sum ≤ ((L.erase j).map cd).sum + D := by
        have h := hsplit j hj
        have h2 := hub j hj
        omega
      have h4 : ((L.map cd).sum : ℚ) ≤ (((L.erase j).map cd).sum : ℚ) + (D : ℚ) := by
        exact_mod_cast h3
      linarith
    have hEpos : ∀ j ∈ L, (0 : ℚ) < (((L.erase j).map cd).sum : ℚ) := by
      intro j hj
      have := hq1 j hj
      linarith
    have hq2 : 2 * (((L.erase i).map cd).sum : ℚ) + (D : ℚ)
        ≤ 2 * ((L.map cd).sum : ℚ) := by
      have h3 : 2 * ((L.erase i).map cd).sum + D ≤ 2 * (L.map cd).sum := by
        have h := hsplit i hiL
        have h2 := hlb i hiL
        omega
      exact_mod_cast h3
    have hterm : ∀ j ∈ L.erase i,
        (19 : ℚ) / (((L.erase j).map (fun x => (cd x : ℚ))).sum)
          ≤ 19 / (((L.map cd).sum : ℚ) - (D : ℚ)) := by
      intro j hj
      have hjL : j ∈ L := List.mem_of_mem_erase hj
      rw [hcast j]
      exact div_le_div_of_nonneg_left (by norm_num) hSD (hq1 j hjL)
    have hA : ((L.erase i).map (fun j =>
          (19 : ℚ) / (((L.erase j).map (fun x => (cd x : ℚ))).sum))).sum
        ≤ 361 / (((L.map cd).sum : ℚ) - (D : ℚ)) := by
      have h1 := sum_le_sum_rat _
        (fun _ => (19 : ℚ) / (((L.map cd).sum : ℚ) - (D : ℚ))) (L.erase i) hterm
      rw [sum_map_const_rat, hlen19] at h1
      have h2 : ((19 : Nat) : ℚ) * ((19 : ℚ) / (((L.map cd).sum : ℚ) - (D : ℚ)))
          = 361 / (((L.map cd).sum : ℚ) - (D : ℚ)) := by
        push_cast
        rw [← mul_div_assoc]
        norm_num
      rw [h2] at h1
      exact h1
    rw [hcast i]
    have hBeq : (19 : ℚ) * ((19 : ℚ) / ((((L.erase i).map cd).sum : Nat) : ℚ))
        = 361 / ((((L.erase i).map cd).sum : Nat) : ℚ) := by
      rw [← mul_div_assoc]
      norm_num
    rw [hBeq]
    have hBpos : (0 : ℚ) < 361 / ((((L.erase i).map cd).sum : Nat) : ℚ) :=
      div_pos (by norm_num) (hEpos i hiL)
    rw [div_lt_iff₀ hBpos]
    have hlt : 361 / (((L.map cd).sum : ℚ) - (D : ℚ))
        < 3 / 2 * (361 / ((((L.erase i).map cd).sum : Nat) : ℚ)) := by
      rw [← mul_div_assoc, div_lt_div_iff₀ hSD (hEpos i hiL)]
      linarith [hq2, hq3]
    exact lt_of_le_of_lt hA hlt

/-- When the in-mask population is at most one more than the record's
buffer length, an included record's pass-1 neighbourhood is its whole
filtered row: the `take` of `KNearest` is a no-op. -/
theorem coreAt_full_neighborhood (db : Database) (nn : List (List Nat))
    (im : InclusionMask) (c : LofCache) (i : Nat)
    (hinc : im.isIncluded i = true)
    (hmask : im.mask.length = db.employees.length)
    (hrow : (nn.getD i []).Perm
      ((List.range db.employees.length).filter (fun t => !(t = i : Bool))))
    (hbuf : im.popcount ≤ (c.neighborhoods.getD i []).length + 1) :
    (coreAt db nn im c i).1 = (nn.getD i []).filter (fun j => im.isIncluded j) := by
  rw [coreAt, if_pos hinc]
  show kNearest _ _ _ = _
  rw [kNearest]
  apply List.take_of_length_le
  have hfl : ((nn.getD i []).filter (fun j => im.isIncluded j)).length
      = includedOthers im i db.employees.length :=
    (hrow.filter _).length_eq
  rw [hfl]
  have h := includedOthers_eq im i hinc
  rw [hmask] at h
  omega

/-- At an in-mask population of exactly `K = 20` and a fresh cache, every
included record scores strictly below the outlier threshold: each included
record's pass-1 neighbourhood is exactly the 19 other included records, so
every reachability distance from `i` to a neighbour `j` is floored up to
`j`'s core distance, and the score collapses to the expression bounded by
`score_bound_arith`.  (A population of identical salaries divides by zero;
the rational model scores it `0`, and the Go float pipeline scores it `NaN`
— the same "no outlier" verdict.) -/
theorem scores_lt_of_pop_eq_k (db : Database) (nn : List (List Nat))
    (im : InclusionMask)
    (hnn : NnReady db nn)
    (hmask : im.mask.length = db.employees.length)
    (hpop : im.popcount = mainK)
    (i : Nat) (hinc : im.isIncluded i = true) :
    lofScore (computeLrds db im
        (computeCoreDistances db nn im (newThreadCache db mainK))) i
      < mainThreshold := by
  obtain ⟨hnnlen, hrows, hsorted⟩ := hnn
  have hi : i < db.employees.length := hmask ▸ lt_length_of_isIncluded hinc
  set c0 := newThreadCache db mainK with hc0
  set c1 := computeCoreDistances db nn im c0 with hc1
  set c2 := computeLrds db im c1 with hc2
  have hfull0 : CacheFull db mainK c0 := newThreadCache_cacheFull db mainK
  have hc0core : c0.coreDistance.length = db.employees.length := by
    rw [hc0]
    simp [newThreadCache]
  have hc1lrds : c1.lrds.length = db.employees.length := by
    rw [hc1]
    show c0.lrds.length = db.employees.length
    rw [hc0]
    simp [newThreadCache]
  set L := im.includedIndices with hLdef
  have hL20 : L.length = 20 := by
    rw [hLdef, ← popcount_eq_length_includedIndices im, hpop]
    rfl
  have hmemL : ∀ j : Nat, j ∈ L ↔ (j < db.employees.length ∧ im.isIncluded j = true) := by
    intro j
    rw [hLdef]
    simp [InclusionMask.includedIndices, List.mem_filter, List.mem_range, hmask]
  have hiL : i ∈ L := (hmemL i).mpr ⟨hi, hinc⟩
  have hnd : L.Nodup := by
    rw [hLdef]
    exact (List.nodup_range _).filter _
  have hNeq : ∀ j ∈ L, c1.neighborhoods.getD j []
      = (nn.getD j []).filter (fun x => im.isIncluded x) := by
    intro j hj
    obtain ⟨hjn, hjinc⟩ := (hmemL j).mp hj
    rw [hc1, computeCoreDistances_nb_getD db nn im c0 j (by rw [hc0core]; exact hjn)]
    refine coreAt_full_neighborhood db nn im c0 j hjinc hmask (hrows j hjn) ?_
    rw [hfull0.2.2.2 j hjn, hpop]
    exact Nat.le_succ _
  have hNperm : ∀ j ∈ L, (c1.neighborhoods.getD j []).Perm (L.erase j) := by
    intro j hj
    obtain ⟨hjn, hjinc⟩ := (hmemL j).mp hj
    rw [hNeq j hj]
    have hpf := (hrows j hjn).filter (fun x => im.isIncluded x)
    have heq := includedOthers_eq_erase im j
    rw [hmask] at heq
    exact heq ▸ hpf
  have hNlen : ∀ j ∈ L, (c1.neighborhoods.getD j []).length = 19 := by
    intro j hj
    rw [(hNperm j hj).length_eq, List.length_erase_of_mem hj, hL20]
  have hNmem : ∀ j ∈ L, ∀ x : Nat,
      (x ∈ c1.neighborhoods.getD j [] ↔ (x ∈ L ∧ x ≠ j)) := by
    intro j hj x
    rw [(hNperm j hj).mem_iff, hnd.mem_erase_iff]
    tauto
  have hcore : ∀ j ∈ L, c1.coreDistance.getD j 0
      = db.dist j ((c1.neighborhoods.getD j []).getLastD 0) := by
    intro j hj
    obtain ⟨hjn, hjinc⟩ := (hmemL j).mp hj
    rw [hc1, computeCoreDistances_core_getD db nn im c0 j (by rw [hc0core]; exact hjn),
      computeCoreDistances_nb_getD db nn im c0 j (by rw [hc0core]; exact hjn)]
    rw [coreAt, if_pos hjinc]
  have hlastmem : ∀ j ∈ L,
      ((c1.neighborhoods.getD j []).getLastD 0) ∈ c1.neighborhoods.getD j [] := by
    intro j hj
    refine getLastD_mem _ 0 (fun hemp => ?_)
    have h19 := hNlen j hj
    rw [hemp] at h19
    exact absurd h19 (by decide)
  have hmaxd : ∀ j ∈ L, ∀ x ∈ c1.neighborhoods.getD j [],
      db.dist j x ≤ c1.coreDistance.getD j 0 := by
    intro j hj x hx
    obtain ⟨hjn, hjinc⟩ := (hmemL j).mp hj
    rw [hcore j hj]
    have hsort : (c1.neighborhoods.getD j []).Pairwise
        (fun a b => db.dist j a ≤ db.dist j b) := by
      rw [hNeq j hj]
      exact (hsorted j hjn).sublist (List.filter_sublist _)
    exact le_getLastD_of_pairwise (db.dist j) _ 0 hsort x hx
  have hfloor : ∀ j ∈ L, ∀ x ∈ c1.neighborhoods.getD j [],
      max (db.dist x j) (c1.coreDistance.getD x 0) = c1.coreDistance.getD x 0 := by
    intro j hj x hx
    obtain ⟨hxL, hxne⟩ := (hNmem j hj x).mp hx
    apply max_eq_right
    have hjNx : j ∈ c1.neighborhoods.getD x [] :=
      (hNmem x hxL j).mpr ⟨hj, fun h => hxne h.symm⟩
    exact hmaxd x hxL j hjNx
  -- the salary diameter of the included population
  set sal : Nat → Nat := fun j => (db.employees.getD j default).salary with hsal
  have hdist : ∀ a b : Nat,
      db.dist a b = if sal a < sal b then sal b - sal a else sal a - sal b := by
    intro a b
    rw [hsal]
    rfl
  have hLne : L ≠ [] := by
    intro h
    rw [h] at hL20
    exact absurd hL20 (by decide)
  obtain ⟨pmx, hpmx, hmax⟩ := exists_argmax sal L hLne
  obtain ⟨pmn, hpmn, hmin⟩ := exists_argmin sal L hLne
  set D := sal pmx - sal pmn with hD
  have hub : ∀ j ∈ L, c1.coreDistance.getD j 0 ≤ D := by
    intro j hj
    rw [hcore j hj]
    have hlj : ((c1.neighborhoods.getD j []).getLastD 0) ∈ L :=
      ((hNmem j hj _).mp (hlastmem j hj)).1
    have h1 := hmin j hj
    have h2 := hmax j hj
    have h3 := hmin _ hlj
    have h4 := hmax _ hlj
    rw [hdist]
    split <;> omega
  have hlb : ∀ j ∈ L, D ≤ 2 * c1.coreDistance.getD j 0 := by
    intro j hj
    have hbnd : ∀ x ∈ L, x ≠ j → db.dist j x ≤ c1.coreDistance.getD j 0 := by
      intro x hx hne
      exact hmaxd j hj x ((hNmem j hj x).mpr ⟨hx, hne⟩)
    have h1 := hmin j hj
    have h2 := hmax j hj
    by_cases hjmn : pmn = j
    · by_cases hjmx : pmx = j
      · subst hjmn
        subst hjmx
        omega
      · have h := hbnd pmx hpmx hjmx
        rw [hdist] at h
        subst hjmn
        split at h <;> omega
    · have hjn := hbnd pmn hpmn hjmn
      rw [hdist] at hjn
      by_cases hjmx : pmx = j
      · subst hjmx
        split at hjn <;> omega
      · have hjx := hbnd pmx hpmx hjmx
        rw [hdist] at hjx
        split at hjn <;> split at hjx <;> omega
  -- reachability sums and densities
  have hreach : ∀ j ∈ L, reachSum db c1 j
      = ((L.erase j).map (fun x => ((c1.coreDistance.getD x 0 : Nat) : ℚ))).sum := by
    intro j hj
    rw [reachSum]
    have hmapeq : (c1.neighborhoods.getD j []).map
          (fun x => ((max (db.dist x j) (c1.coreDistance.getD x 0) : Nat) : ℚ))
        = (c1.neighborhoods.getD j []).map
          (fun x => ((c1.coreDistance.getD x 0 : Nat) : ℚ)) := by
      refine List.map_congr_left (fun x hx => ?_)
      rw [hfloor j hj x hx]
    rw [hmapeq]
    exact ((hNperm j hj).map _).sum_eq
  have hlrd : ∀ j ∈ L, c2.lrds.getD j 0
      = (19 : ℚ) / ((L.erase j).map (fun x => ((c1.coreDistance.getD x 0 : Nat) : ℚ))).sum := by
    intro j hj
    obtain ⟨hjn, hjinc⟩ := (hmemL j).mp hj
    rw [hc2, computeLrds_lrds_getD db im c1 j (by rw [hc1lrds]; exact hjn)]
    rw [lrdAt, if_pos hjinc, hNlen j hj, hreach j hj]
    norm_num
  -- assemble the score and conclude
  rw [lofScore]
  have hnb2 : c2.neighborhoods.getD i [] = c1.neighborhoods.getD i [] := by
    rw [hc2]
    rfl
  rw [hnb2]
  have houter : ((c1.neighborhoods.getD i []).map (fun j => c2.lrds.getD j 0)).sum
      = ((L.erase i).map (fun j => (19 : ℚ) /
          ((L.erase j).map (fun x => ((c1.coreDistance.getD x 0 : Nat) : ℚ))).sum)).sum := by
    have h1 : (c1.neighborhoods.getD i []).map (fun j => c2.lrds.getD j 0)
        = (c1.neighborhoods.getD i []).map (fun j => (19 : ℚ) /
            ((L.erase j).map (fun x => ((c1.coreDistance.getD x 0 : Nat) : ℚ))).sum) := by
      refine List.map_congr_left (fun j hj => ?_)
      exact hlrd j ((hNmem i hiL j).mp hj).1
    rw [h1]
    exact ((hNperm i hiL).map _).sum_eq
  rw [houter, hNlen i hiL, hlrd i hiL]
  show _ < (3 : ℚ) / 2
  push_cast
  exact score_bound_arith L (fun x => c1.coreDistance.getD x 0) i D hL20 hiL hub hlb

theorem lofsGo_nil_of_lt (cache : LofCache) (im : InclusionMask) (threshold : ℚ)
    (handler : Nat → ℚ → Bool) :
    ∀ l : List Nat, (∀ i ∈ l, im.isIncluded i = true → lofScore cache i < threshold) →
      lofsGo cache im threshold handler l = []
  | [], _ => rfl
  | i :: rest, h => by
    rw [lofsGo]
    by_cases hinc : im.isIncluded i = true
    · rw [if_pos hinc, if_neg (not_le.mpr (h i (List.mem_cons_self i rest) hinc))]
      exact lofsGo_nil_of_lt cache im threshold handler rest
        (fun x hx => h x (List.mem_cons_of_mem i hx))
    · rw [if_neg hinc]
      exact lofsGo_nil_of_lt cache im threshold handler rest
        (fun x hx => h x (List.mem_cons_of_mem i hx))

/-- A fresh worker state reports no outliers at all on a context selecting a
population of exactly `K = 20` records. -/
theorem findOutliersWrap_pop_k_nil (db : Database) (nn : List (List Nat))
    (ctx : Context) (handler : Nat → ℚ → Bool)
    (hnn : NnReady db nn)
    (hpop : fillPop db ctx = mainK) :
    (findOutliersWrap db nn mainThreshold (newThreadCache db mainK)
        (newInclusionMask db) ctx handler).2.2 = [] := by
  have hcnt : ((newInclusionMask db).fill (db.filter ctx)).count = mainK := by
    rw [(fill_spec _ _).2]
    have hz : (newInclusionMask db).count = 0 := rfl
    have hp : ((db.filter ctx).filter id).length = mainK := hpop
    omega
  have hmask2 : ((newInclusionMask db).fill (db.filter ctx)).mask.length
      = db.employees.length := by
    rw [fill_mask_length, database_filter_length]
  have hpop2 : ((newInclusionMask db).fill (db.filter ctx)).popcount = mainK := by
    rw [fill_popcount]
    exact hpop
  rw [findOutliersWrap]
  rw [if_neg (by rw [hcnt]; decide)]
  show (lofFindOutliers db nn mainThreshold (newThreadCache db mainK)
      ((newInclusionMask db).fill (db.filter ctx)) handler).2 = []
  exact lofsGo_nil_of_lt _ _ mainThreshold handler _
    (fun i _ hinc => scores_lt_of_pop_eq_k db nn _ hnn hmask2 hpop2 i hinc)

/-- If the baseline pass designates a target outlier, the baseline
population is at least 21: populations below 20 are gated off entirely, and
at exactly 20 no record scores as an outlier. -/
theorem baselineTarget_pop (db : Database) (nn : List (List Nat)) (t : Nat)
    (hnn : NnReady db nn)
    (ht : baselineTarget db nn = some t) :
    mainK + 1 ≤ fillPop db (mainBaselineContext db) := by
  by_contra hcon
  push_neg at hcon
  rcases Nat.lt_or_ge (fillPop db (mainBaselineContext db)) mainK with hlt | hge
  · have hcnt : ((newInclusionMask db).fill
        (db.filter (mainBaselineContext db))).count < 20 := by
      rw [(fill_spec _ _).2]
      have hz : (newInclusionMask db).count = 0 := rfl
      have hp : ((db.filter (mainBaselineContext db)).filter id).length < 20 := hlt
      omega
    unfold baselineTarget findOutliersWrap at ht
    rw [if_pos hcnt] at ht
    simp at ht
  · have heq : fillPop db (mainBaselineContext db) = mainK := by omega
    have hnil := findOutliersWrap_pop_k_nil db nn (mainBaselineContext db)
      (fun _ _ => false) hnn heq
    unfold baselineTarget at ht
    rw [hnil] at ht
    simp at ht

/-- A flag that reads `true` on a baseline dimension (prefix of `true`s
followed by `false`s) lies in the prefix, and so reads `true` in every leaf
of that dimension. -/
theorem getD_append_replicate_true {l : List Bool} {k m v : Nat}
    (h : (List.replicate k true ++ List.replicate m false).getD v false = true) :
    (List.replicate k true ++ l).getD v false = true := by
  have hvk : v < k := by
    by_contra hge
    push_neg at hge
    rw [List.getD_eq_getElem?_getD,
      List.getElem?_append_right (by simpa using hge),
      List.getElem?_replicate] at h
    revert h
    split <;> simp
  rw [List.getD_eq_getElem?_getD,
    List.getElem?_append_left (by simpa using hvk),
    List.getElem?_replicate, if_pos hvk]
  rfl

/-- Every dispatched scan context selects at least the baseline population:
the baseline's prefixes stay included in every leaf, and the baseline's
flippable flags are all `false`. -/
theorem scanDispatched_pop_mono (db : Database) (ctx : Context)
    (hctx : ctx ∈ scanDispatched db) :
    fillPop db (mainBaselineContext db) ≤ fillPop db ctx := by
  have hmem : ctx ∈ enumLeaves origCtxEmployersCount origCtxJobTitlesCount
      origCtxYearsCount (db.employers.length - origCtxEmployersCount)
      (db.jobTitles.length - origCtxJobTitlesCount)
      (db.years.length - origCtxYearsCount) :=
    (List.tail_sublist _).subset hctx
  rw [enumLeaves_eq] at hmem
  obtain ⟨e, -, hmem⟩ := List.mem_flatMap.mp hmem
  obtain ⟨j, -, hmem⟩ := List.mem_flatMap.mp hmem
  obtain ⟨y, -, rfl⟩ := List.mem_map.mp hmem
  unfold fillPop Database.filter
  rw [← List.countP_eq_length_filter, ← List.countP_eq_length_filter,
    List.countP_map, List.countP_map]
  apply List.countP_mono_left
  intro emp hemp hbase
  simp only [Function.comp_apply, id_eq, Bool.and_eq_true,
    mainBaselineContext, baselineContext, mkScanContext] at hbase ⊢
  obtain ⟨⟨h1, h2⟩, h3⟩ := hbase
  exact ⟨⟨getD_append_replicate_true h1, getD_append_replicate_true h2⟩,
    getD_append_replicate_true h3⟩

/-- C10: running the superset scan on the same database and baseline under
any assignment of the dispatched contexts to any number of workers yields
the same multiset of matching contexts (so the same set and the same total
count); only discovery/report order may differ.  The hypotheses state only
that the baseline pass designated a target outlier (as main.go requires,
aborting otherwise) and that each dispatched context is assigned to one
worker of the pool.  The key invariants are that a designated target forces
the baseline population above the minimum gate, every dispatched superset
context selects at least that population, such populations refill every
per-worker neighbourhood buffer to exactly `K`, and no pass reads the
mask's stale `Count` beyond the gate — so each worker computes the same
verdict for a context as a fresh worker would, independent of its earlier
work. -/
theorem scan_schedule_independent (db : Database) (nn : List (List Nat)) (t : Nat)
    (a1 a2 : List Nat) (w1 w2 : Nat)
    (hnn : NnReady db nn)
    (ht : baselineTarget db nn = some t)
    (hlen1 : (scanDispatched db).length ≤ a1.length)
    (hw1 : ∀ w ∈ a1, w < w1)
    (hlen2 : (scanDispatched db).length ≤ a2.length)
    (hw2 : ∀ w ∈ a2, w < w2) :
    (poolMatches db nn t (scanDispatched db) a1 w1).Perm
      (poolMatches db nn t (scanDispatched db) a2 w2) := by
  have hpops : ∀ ctx ∈ scanDispatched db, mainK + 1 ≤ fillPop db ctx := fun ctx hc =>
    le_trans (baselineTarget_pop db nn t hnn ht) (scanDispatched_pop_mono db ctx hc)
  exact (poolMatches_perm db nn t _ a1 w1 hnn hpops hlen1 hw1).trans
    (poolMatches_perm db nn t _ a2 w2 hnn hpops hlen2 hw2).symm

/-- Concrete scan instance for the C10 witness: a baseline population of 22
records (an outlier at index 0 plus a 21-record cluster), one extra
employer value carrying one record, so exactly one flippable variable and
one dispatched context. -/
def dbC10 : Database :=
  { employers := ["E0", "E1", "E2", "E3", "E4", "E5", "E6"],
    jobTitles := ["T0", "T1", "T2", "T3", "T4"],
    years := [2019, 2020, 2021, 2022, 2023],
    employees := [
    { id := 0, employer := 0, jobTitle := 0, year := 0, salary := 10000 },
    { id := 1, employer := 0, jobTitle := 0, year := 0, salary := 0 },
    { id := 2, employer := 0, jobTitle := 0, year := 0, salary := 2 },
    { id := 3, employer := 0, jobTitle := 0, year := 0, salary := 4 },
    { id := 4, employer := 0, jobTitle := 0, year := 0, salary := 6 },
    { id := 5, employer := 0, jobTitle := 0, year := 0, salary := 8 },
    { id := 6, employer := 0, jobTitle := 0, year := 0, salary := 10 },
    { id := 7, employer := 0, jobTitle := 0, year := 0, salary := 12 },
    { id := 8, employer := 0, jobTitle := 0, year := 0, salary := 14 },
    { id := 9, employer := 0, jobTitle := 0, year := 0, salary := 16 },
    { id := 10, employer := 0, jobTitle := 0, year := 0, salary := 18 },
    { id := 11, employer := 0, jobTitle := 0, year := 0, salary := 20 },
    { id := 12, employer := 0, jobTitle := 0, year := 0, salary := 22 },
    { id := 13, employer := 0, jobTitle := 0, year := 0, salary := 24 },
    { id := 14, employer := 0, jobTitle := 0, year := 0, salary := 26 },
    { id := 15, employer := 0, jobTitle := 0, year := 0, salary := 28 },
    { id := 16, employer := 0, jobTitle := 0, year := 0, salary := 30 },
    { id := 17, employer := 0, jobTitle := 0, year := 0, salary := 32 },
    { id := 18, employer := 0, jobTitle := 0, year := 0, salary := 34 },
    { id := 19, employer := 0, jobTitle := 0, year := 0, salary := 36 },
    { id := 20, employer := 0, jobTitle := 0, year := 0, salary := 38 },
    { id := 21, employer := 0, jobTitle := 0, year := 0, salary := 40 },
    { id := 22, employer := 6, jobTitle := 0, year := 0, salary := 21 }] }

/-- The precomputed neighbour index for `dbC10` (each row: all other record
indices in ascending distance order). -/
def nnC10 : List (List Nat) :=
  [
    [21, 20, 19, 18, 17, 16, 15, 14, 13, 12, 22, 11, 10, 9, 8, 7, 6, 5, 4, 3, 2, 1],
    [2, 3, 4, 5, 6, 7, 8, 9, 10, 11, 22, 12, 13, 14, 15, 16, 17, 18, 19, 20, 21, 0],
    [1, 3, 4, 5, 6, 7, 8, 9, 10, 11, 22, 12, 13, 14, 15, 16, 17, 18, 19, 20, 21, 0],
    [2, 4, 1, 5, 6, 7, 8, 9, 10, 11, 22, 12, 13, 14, 15, 16, 17, 18, 19, 20, 21, 0],
    [3, 5, 2, 6, 1, 7, 8, 9, 10, 11, 22, 12, 13, 14, 15, 16, 17, 18, 19, 20, 21, 0],
    [4, 6, 3, 7, 2, 8, 1, 9, 10, 11, 22, 12, 13, 14, 15, 16, 17, 18, 19, 20, 21, 0],
    [5, 7, 4, 8, 3, 9, 2, 10, 1, 11, 22, 12, 13, 14, 15, 16, 17, 18, 19, 20, 21, 0],
    [6, 8, 5, 9, 4, 10, 3, 11, 22, 2, 12, 1, 13, 14, 15, 16, 17, 18, 19, 20, 21, 0],
    [7, 9, 6, 10, 5, 11, 22, 4, 12, 3, 13, 2, 14, 1, 15, 16, 17, 18, 19, 20, 21, 0],
    [8, 10, 7, 11, 22, 6, 12, 5, 13, 4, 14, 3, 15, 2, 16, 1, 17, 18, 19, 20, 21, 0],
    [9, 11, 22, 8, 12, 7, 13, 6, 14, 5, 15, 4, 16, 3, 17, 2, 18, 1, 19, 20, 21, 0],
    [22, 10, 12, 9, 13, 8, 14, 7, 15, 6, 16, 5, 17, 4, 18, 3, 19, 2, 20, 1, 21, 0],
    [22, 11, 13, 10, 14, 9, 15, 8, 16, 7, 17, 6, 18, 5, 19, 4, 20, 3, 21, 2, 1, 0],
    [12, 14, 22, 11, 15, 10, 16, 9, 17, 8, 18, 7, 19, 6, 20, 5, 21, 4, 3, 2, 1, 0],
    [13, 15, 12, 16, 22, 11, 17, 10, 18, 9, 19, 8, 20, 7, 21, 6, 5, 4, 3, 2, 1, 0],
    [14, 16, 13, 17, 12, 18, 22, 11, 19, 10, 20, 9, 21, 8, 7, 6, 5, 4, 3, 2, 1, 0],
    [15, 17, 14, 18, 13, 19, 12, 20, 22, 11, 21, 10, 9, 8, 7, 6, 5, 4, 3, 2, 1, 0],
    [16, 18, 15, 19, 14, 20, 13, 21, 12, 22, 11, 10, 9, 8, 7, 6, 5, 4, 3, 2, 1, 0],
    [17, 19, 16, 20, 15, 21, 14, 13, 12, 22, 11, 10, 9, 8, 7, 6, 5, 4, 3, 2, 1, 0],
    [18, 20, 17, 21, 16, 15, 14, 13, 12, 22, 11, 10, 9, 8, 7, 6, 5, 4, 3, 2, 1, 0],
    [19, 21, 18, 17, 16, 15, 14, 13, 12, 22, 11, 10, 9, 8, 7, 6, 5, 4, 3, 2, 1, 0],
    [20, 19, 18, 17, 16, 15, 14, 13, 12, 22, 11, 10, 9, 8, 7, 6, 5, 4, 3, 2, 1, 0],
    [11, 12, 10, 13, 9, 14, 8, 15, 7, 16, 6, 17, 5, 18, 4, 19, 3, 20, 2, 21, 1, 0]]
set_option maxRecDepth 1000000 in
unseal Rat.add Rat.mul Rat.inv Rat.sub in
/-- Witness for C10 on `dbC10`: the baseline pass designates record 0 as
the target, and the one dispatched superset context produces the same
multiset of matches whether it is handed to the only worker of a
single-worker pool or to the second worker of a two-worker pool. -/
theorem scan_schedule_independent_witness :
    (poolMatches dbC10 nnC10 0 (scanDispatched dbC10) [0] 1).Perm
      (poolMatches dbC10 nnC10 0 (scanDispatched dbC10) [1] 2) :=
  scan_schedule_independent dbC10 nnC10 0 [0] [1] 1 2
    ⟨by decide, by decide, by decide⟩ (by decide) (by decide) (by decide)
    (by decide) (by decide)
